import Mathlib

/-!
# Verification of the `mdbook-luacats` core against its specification

This file gives a shallow embedding of the core of the `mdbook-luacats`
repository (the LuaCATS record model in `src/lua_cats.rs` and `src/types.rs`,
the workspace builder in `src/workspace.rs`, and the Markdown renderer in
`src/print.rs`) and proves theorems about the embedded definitions.

Modelling conventions:
* Rust `u64` offsets are `Nat` (the code only compares them, never does
  arithmetic on them).
* `PathBuf` values are lists of path components (`List String`); all absolute
  paths in play share the leading root component, which the embedding drops
  uniformly, so `strip_prefix`/`components` translate to list operations.
* Rust's `HashMap` grouping in `Workspace::load` has unspecified iteration
  order; the embedding uses an association list keyed by first insertion,
  which is one admissible iteration order.  The subsequent sort by
  `(depth, file name)` makes every result used by a theorem independent of
  this choice except among distinct files sharing depth and file name.
* Fallible Rust code (`anyhow::Result`, serde decoding) is `Except String`.
* Panics are not silently totalized away where a claim depends on them: the
  `loadChecked` pipeline models the debug-build checked subtraction in
  `MetaFile::from` (and thereby the abort on a define URL resolving to the
  workspace root itself) alongside the total model used by the other claims.
-/

set_option autoImplicit false

namespace MdbookLuacats

/-! ## The record model (`src/lua_cats.rs`)

`DefinitionType` is the closed kind enumeration from `src/lua_cats.rs`.
The string spellings attached below in `definitionTypeSpellings` are the
serde names: `rename_all = "lowercase"` plus the explicit `rename`
attributes.  The Rust variant `Type` is spelled `TypeDef` here because
`Type` is reserved in Lean; every other constructor keeps its source name.
-/

inductive DefinitionType where
  | Binary
  | DocAlias
  | DocClass
  | DocExtendsName
  | DocEnum
  | DocType
  | Function
  | FunctionReturn
  | Integer
  | Local
  | Nil
  | Number
  | SelfType
  | SetField
  | SetGlobal
  | SetMethod
  | String
  | Table
  | TableField
  | TypeDef
  | Variable
  | VarArg
deriving DecidableEq, Repr

/-- `FuncArg` from `src/lua_cats.rs` (the name is missing for varargs). -/
structure FuncArg where
  name : Option String
  lua_type : DefinitionType
  view : String
  start : Nat
  finish : Nat
deriving DecidableEq, Repr

/-- `FuncReturn` from `src/lua_cats.rs`. -/
structure FuncReturn where
  name : Option String
  lua_type : DefinitionType
  view : String
deriving DecidableEq, Repr

/-- `Extend` from `src/lua_cats.rs`: a refinement attached to a `Define`.
The Rust field `extends` is spelled `extends_` wherever it occurs in this
file because `extends` is reserved in Lean. -/
structure Extend where
  start : Nat
  finish : Nat
  lua_type : DefinitionType
  view : String
  desc : Option String
  rawdesc : Option String
  args : Option (List FuncArg)
  returns : Option (List FuncReturn)
deriving DecidableEq, Repr

/-- `Define` from `src/lua_cats.rs`: one source location contributing to a
`Definition`.  `file` is the raw `file://` URI string. -/
structure Define where
  start : Nat
  finish : Nat
  lua_type : DefinitionType
  file : String
  extends_ : List Extend
deriving DecidableEq, Repr

/-- `Definition` from `src/lua_cats.rs`: one named documentation entry. -/
structure Definition where
  desc : Option String
  rawdesc : Option String
  name : String
  lua_type : DefinitionType
  defines : List Define
deriving DecidableEq, Repr

/-! ## Path and URL helpers

The workspace builder resolves each `Define.file` URI with
`Url::parse(..)?.to_file_path()` (the `url` crate) and then manipulates the
result with `std::path::PathBuf`.  Paths are modelled as lists of normal
components; the leading root of an absolute path is dropped uniformly.
-/

/-- Split a character list at every occurrence of `sep` (the pieces do not
contain `sep`).  Used to turn the path part of a `file://` URL into its
components. -/
def splitOnChar (sep : Char) : List Char → List (List Char)
  | [] => [[]]
  | c :: cs =>
    if c = sep then
      [] :: splitOnChar sep cs
    else
      match splitOnChar sep cs with
      | [] => [[c]]
      | piece :: rest => (c :: piece) :: rest

/-- The normal components of an absolute path string such as `/a/b/c.lua`
(leading slash, repeated slashes and `.` segments contribute nothing, as in
WHATWG URL path parsing followed by `Path::components`). -/
def pathComponents (cs : List Char) : List String :=
  ((splitOnChar '/' cs).map (fun l => String.mk l)).filter
    (fun c => c ≠ "" ∧ c ≠ ".")

/-- Lowercase an ASCII letter (WHATWG URL parsing lowercases the scheme
and the host). -/
def asciiLower (c : Char) : Char :=
  if 'A' ≤ c ∧ c ≤ 'Z' then Char.ofNat (c.toNat + 32) else c

/-- Models `Url::parse(&define.file)` followed by `.to_file_path()` from
`Workspace::load` (`src/workspace.rs`).  `Url::parse` matches the scheme
case-insensitively, and on Unix `to_file_path` accepts a `file` URL whose
host is empty or (case-insensitively) `localhost` and rejects every other
host; so `file:///p`, `FILE:///p` and `file://localhost/p` all resolve to
the absolute path `/p`, and any other string is an error (either
`Url::parse` fails, or `to_file_path` rejects the URL).  `..` segments and
percent-encoding do not occur in the inputs this development reasons about
and are not modelled. -/
def parseFileUrl (s : String) : Option (List String) :=
  let cs := s.toList
  let lower := cs.map asciiLower
  if "file:///".toList.isPrefixOf lower then
    some (pathComponents (cs.drop 7))
  else if "file://localhost/".toList.isPrefixOf lower then
    some (pathComponents (cs.drop 16))
  else
    none

/-- Index (from the front) of the last `'.'` in a character list, if any.
Helper for `Path::file_stem` semantics. -/
def lastDotPos : List Char → Option Nat
  | [] => none
  | c :: cs =>
    match lastDotPos cs with
    | some i => some (i + 1)
    | none => if c = '.' then some 0 else none

/-- Rust `Path::file_stem` applied to a file name: the portion before the
last `'.'`, except that a name whose only `'.'` is its first character (such
as `.gitignore`) is returned whole. -/
def fileStemOfName (name : String) : String :=
  let cs := name.toList
  match lastDotPos cs with
  | none => name
  | some 0 => name
  | some i => String.mk (cs.take i)

/-- Rust `Path::strip_prefix` on component lists: remove `root` from the
front of `p`, or fail when `root` is not a prefix. -/
def stripPrefixPath (root p : List String) : Option (List String) :=
  if root.isPrefixOf p then some (p.drop root.length) else none

/-! ## The workspace data model (`src/workspace.rs`) -/

/-- `MetaFile` from `src/workspace.rs`: a Lua file containing only LuaCATS
meta.  `path` is relative to the workspace root; `subFiles` (Rust
`sub_files`) are the files considered below this one in the hierarchy.
A nested inductive is used because Lean structures cannot be recursive. -/
inductive MetaFile where
  | mk (path : List String) (definitions : List Definition) (depth : Nat)
      (subFiles : List MetaFile)

/-- The file path, relative to the workspace root. -/
def MetaFile.path : MetaFile → List String
  | .mk p _ _ _ => p

/-- Parsed definitions from this file. -/
def MetaFile.definitions : MetaFile → List Definition
  | .mk _ d _ _ => d

/-- The depth in the directory tree. -/
def MetaFile.depth : MetaFile → Nat
  | .mk _ _ n _ => n

/-- Files considered below this one in the hierarchy. -/
def MetaFile.subFiles : MetaFile → List MetaFile
  | .mk _ _ _ s => s

/-- `MetaFile::file_name` (`src/workspace.rs`): the final path component.
The Rust code unwraps `path.file_name()`, which panics on the empty
relative path — reached exactly when a define's URL resolves to the
workspace root itself (see claim C9 and `metaFileFromChecked`); this total
model returns `""` there, and the checked pipeline accounts for that corner
before any file name is taken. -/
def MetaFile.fileName (f : MetaFile) : String :=
  match f.path.getLast? with
  | some s => s
  | none => ""

/-- `MetaFile::file_stem` (`src/workspace.rs`). -/
def MetaFile.fileStem (f : MetaFile) : String :=
  fileStemOfName f.fileName

/-- `MetaFile::directory_name` (`src/workspace.rs`): `None` at depth 0,
otherwise the name of the file's containing directory (the last component
of the path's parent). -/
def MetaFile.directoryName (f : MetaFile) : Option String :=
  if f.depth = 0 then none
  else f.path.dropLast.getLast?

/-- `MetaFile::add_sub_file` (`src/workspace.rs`). -/
def MetaFile.addSubFile (f sub : MetaFile) : MetaFile :=
  match f with
  | .mk p d n s => .mk p d n (s ++ [sub])

/-- The identifying payload of a workspace node: its path, definitions and
depth.  Inserting later files can extend a node's `subFiles` but never
changes its core. -/
def MetaFile.core (f : MetaFile) : List String × List Definition × Nat :=
  (f.path, f.definitions, f.depth)

/-- `Workspace` from `src/workspace.rs`: the root path and the top-level
meta files. -/
structure Workspace where
  root : List String
  files : List MetaFile

/-- `Workspace::new`. -/
def Workspace.new (root : List String) : Workspace :=
  { root := root, files := [] }

/-! ## Sorting (`itertools::sorted_by` is a stable sort)

Both sorts in `src/workspace.rs` are modelled by a stable insertion sort
(`foldr` of an insertion step): an element is placed before the first
later-originating element it is `≤`, which reproduces the stable order of
`sorted_by`.
-/

/-- Insert a `(start, definition)` pair into a list sorted by start offset,
before the first pair with a strictly larger or equal key that originated
later.  Models the comparator `|(a, _), (b, _)| a.cmp(b)` of
`MetaFile::from`. -/
def insertByStart (x : Nat × Definition) :
    List (Nat × Definition) → List (Nat × Definition)
  | [] => [x]
  | y :: ys => if x.1 ≤ y.1 then x :: y :: ys else y :: insertByStart x ys

/-- Stable sort of `(start, definition)` pairs by start offset. -/
def sortByStart (l : List (Nat × Definition)) : List (Nat × Definition) :=
  l.foldr insertByStart []

/-- Byte-order comparison of strings (Rust `String`'s `Ord`); UTF-8 byte
order coincides with code-point order, so this is code-point lexicographic
order. -/
def strLt : List Char → List Char → Bool
  | [], [] => false
  | [], _ :: _ => true
  | _ :: _, [] => false
  | a :: as, b :: bs =>
    if a.val < b.val then true
    else if b.val < a.val then false
    else strLt as bs

/-- The comparator of `Workspace::load`:
`a.depth.cmp(&b.depth).then(a.file_name().cmp(&b.file_name()))`, as the
"less or equal" test used by the stable insertion sort. -/
def fileLe (a b : MetaFile) : Bool :=
  if a.depth < b.depth then true
  else if b.depth < a.depth then false
  else !(strLt b.fileName.toList a.fileName.toList)

/-- Insertion step for the sort of meta files by `(depth, file name)`. -/
def insertFile (x : MetaFile) : List MetaFile → List MetaFile
  | [] => [x]
  | y :: ys => if fileLe x y then x :: y :: ys else y :: insertFile x ys

/-- Stable sort of meta files by `(depth, file name)`, first by depth so
that parents are added before children, then alphabetically. -/
def sortFiles (l : List MetaFile) : List MetaFile :=
  l.foldr insertFile []

/-! ## Grouping definitions by file (`Workspace::load`, first loop) -/

/-- One grouping step of `defs_by_file.entry(path).or_default().push(..)`:
append `v` to the bucket of key `k`, creating the bucket at the end when
absent.  The association list keeps first-insertion key order (one
admissible `HashMap` iteration order; see the header). -/
def insertGrouped (k : List String) (v : Nat × Definition) :
    List (List String × List (Nat × Definition)) →
    List (List String × List (Nat × Definition))
  | [] => [(k, [v])]
  | (k', vs) :: rest =>
    if k' = k then (k', vs ++ [v]) :: rest
    else (k', vs) :: insertGrouped k v rest

/-- The inner loop of the first loop of `Workspace::load`, for one
`Definition`: for each of its `Define`s, resolve the file URL (an
unresolvable URL aborts the whole load with an error, the `?` in the Rust)
and record `(define.start, definition)` under the resolved path. -/
def addDefinesToGroups (definition : Definition)
    (acc : List (List String × List (Nat × Definition))) :
    List Define → Except String (List (List String × List (Nat × Definition)))
  | [] => .ok acc
  | define :: rest =>
    match parseFileUrl define.file with
    | none => .error "invalid file url"
    | some p =>
      addDefinesToGroups definition
        (insertGrouped p (define.start, definition) acc) rest

/-- The outer loop of the first loop of `Workspace::load`. -/
def groupDefsByFileAux (acc : List (List String × List (Nat × Definition))) :
    List Definition →
    Except String (List (List String × List (Nat × Definition)))
  | [] => .ok acc
  | d :: ds =>
    match addDefinesToGroups d acc d.defines with
    | .error e => .error e
    | .ok acc' => groupDefsByFileAux acc' ds

/-- The first loop of `Workspace::load`: index definitions by their file in
the order they were defined. -/
def groupDefsByFile (docs : List Definition) :
    Except String (List (List String × List (Nat × Definition))) :=
  groupDefsByFileAux [] docs

/-! ## Building meta files and inserting them (`src/workspace.rs`) -/

/-- `From<(PathBuf, Vec<(u64, Definition)>)> for MetaFile`: depth is the
component count minus one, and the definitions are stably sorted by the
start offset of the define that placed them in this file.  The `Nat`
subtraction here is total where the source's
`path.components().count() - 1` underflows on the empty relative path
(debug builds panic; release builds wrap to `usize::MAX`);
`metaFileFromChecked` below models the checked semantics, and the two
agree on every nonempty path. -/
def metaFileFrom (path : List String) (definitions : List (Nat × Definition)) :
    MetaFile :=
  .mk path ((sortByStart definitions).map (fun x => x.2)) (path.length - 1) []

/-- The `filter_map` of `Workspace::load`: keep the groups whose path lies
under `root` (discarding definitions from outside the root, e.g. system
definitions), relativize, and build a `MetaFile` from each. -/
def builtMetaFiles (root : List String)
    (groups : List (List String × List (Nat × Definition))) : List MetaFile :=
  groups.filterMap
    (fun g => (stripPrefixPath root g.1).map (fun rel => metaFileFrom rel g.2))

/-- The parent test of `Workspace::add_file`:
`other_file.depth == depth - 1 && other_file.file_stem() == file.directory_name().unwrap()`.
The embedding compares through `Option` instead of unwrapping; the unwrap
cannot fail for files built by `load` (depth > 0 forces a path of at least
two components). -/
def isParentOf (g f : MetaFile) : Prop :=
  g.depth = f.depth - 1 ∧ f.directoryName = some g.fileStem

instance (g f : MetaFile) : Decidable (isParentOf g f) := by
  unfold isParentOf; infer_instance

/-- The linear scan of `Workspace::add_file`: append `f` to the sub-files
of the first top-level file satisfying the parent test, or report `none`
when there is no such file. -/
def insertIntoParent (f : MetaFile) :
    List MetaFile → Option (List MetaFile)
  | [] => none
  | g :: gs =>
    if isParentOf g f then
      some (g.addSubFile f :: gs)
    else
      (insertIntoParent f gs).map (fun gs' => g :: gs')

/-- `Workspace::add_file` acting on the top-level file list: a depth-0 file
is appended directly; otherwise the file is attached to the first top-level
parent candidate, falling back to a top-level append when no parent is
found (a non-fatal anomaly, logged with `log::warn!` in the source). -/
def addFile (files : List MetaFile) (f : MetaFile) : List MetaFile :=
  if f.depth = 0 then
    files ++ [f]
  else
    match insertIntoParent f files with
    | some files' => files'
    | none => files ++ [f]

/-- `Workspace::add_file`. -/
def Workspace.addFile (ws : Workspace) (f : MetaFile) : Workspace :=
  { ws with files := MdbookLuacats.addFile ws.files f }

/-- `Workspace::load` with the mutation of `self` made explicit: the result
is the final state of the workspace together with the `anyhow::Result<()>`.
The fallible grouping loop runs before `self.files` is touched, so an
error leaves the workspace exactly as it was. -/
def Workspace.loadImpl (ws : Workspace) (docs : List Definition) :
    Except String Unit × Workspace :=
  match groupDefsByFile docs with
  | .error e => (.error e, ws)
  | .ok groups =>
    let metaFiles := sortFiles (builtMetaFiles ws.root groups)
    (.ok (), { ws with files := metaFiles.foldl MdbookLuacats.addFile ws.files })

/-- `Workspace::load` as a function from the initial workspace to either
the loaded workspace or the error. -/
def Workspace.load (ws : Workspace) (docs : List Definition) :
    Except String Workspace :=
  match ws.loadImpl docs with
  | (.ok _, ws') => .ok ws'
  | (.error e, _) => .error e

/-! ## The checked (panic-aware) build pipeline

`MetaFile::from` computes `path.components().count() - 1` on a `usize`.
When a define's URL resolves to the workspace root itself, the retained
group's relative path is empty and the subtraction underflows: debug
builds panic there, and release builds wrap to `usize::MAX` and panic
shortly after at the `file_name().unwrap()` of the same file.  Either way
the run aborts without returning.  The definitions below make that abort
explicit (with the debug-build panic site) so that claim C9 can be settled
against it; on every input that stays clear of the corner they agree with
the total model above.
-/

/-- Rust `usize` subtraction as checked in debug builds: `a - b` is a
panic (`none`) when `b > a`. -/
def usizeSub (a b : Nat) : Option Nat :=
  if b ≤ a then some (a - b) else none

/-- `MetaFile::from` with the depth computation
`path.components().count() - 1` modelled by the checked subtraction:
building a meta file for the empty relative path is a panic, not a value.
Agrees with `metaFileFrom` on every nonempty path
(`metaFileFromChecked_of_ne_nil`). -/
def metaFileFromChecked (path : List String)
    (definitions : List (Nat × Definition)) : Option MetaFile :=
  (usizeSub path.length 1).map
    (fun depth =>
      .mk path ((sortByStart definitions).map (fun x => x.2)) depth [])

/-- The `filter_map` of `Workspace::load` with the panic of
`MetaFile::from` made explicit: `none` when building any retained group's
meta file panics. -/
def checkedBuild (root : List String) :
    List (List String × List (Nat × Definition)) → Option (List MetaFile)
  | [] => some []
  | g :: rest =>
    match stripPrefixPath root g.1 with
    | none => checkedBuild root rest
    | some rel =>
      match metaFileFromChecked rel g.2 with
      | none => none
      | some mf => (checkedBuild root rest).map (fun l => mf :: l)

/-- The sort-and-insert phase of `Workspace::load` on the checked build:
`none` when building the meta files panicked. -/
def Workspace.buildChecked (ws : Workspace)
    (groups : List (List String × List (Nat × Definition))) :
    Option Workspace :=
  (checkedBuild ws.root groups).map
    (fun metaFiles => { ws with
      files := (sortFiles metaFiles).foldl MdbookLuacats.addFile ws.files })

/-- `Workspace::load` with the panic made explicit: `.error` is the
`anyhow` error return for an unparseable URL, `.ok none` is a panic while
building the meta files (the run aborts; no workspace is produced), and
`.ok (some ws)` is a successful return. -/
def Workspace.loadChecked (ws : Workspace) (docs : List Definition) :
    Except String (Option Workspace) :=
  match groupDefsByFile docs with
  | .error e => .error e
  | .ok groups => .ok (ws.buildChecked groups)

/-- A define's file string is a valid file URL and, when its resolved path
lies under `root`, lies strictly below it (it is not the root itself). -/
def validNonRootUrl (root : List String) (s : String) : Bool :=
  match parseFileUrl s with
  | none => false
  | some p => !(root.isPrefixOf p) || decide (root.length < p.length)

/-! ## The Markdown printer (`src/print.rs`) -/

/-- `MarkdownOptions` from `src/print.rs`. -/
structure MarkdownOptions where
  heading_level : Option Nat

/-- Rust `str::repeat`: `n` concatenated copies of `s`. -/
def strRepeat (s : String) : Nat → String
  | 0 => ""
  | n + 1 => s ++ strRepeat s n

/-- `MarkdownPrinter::print_definition` (`src/print.rs`), with the
`write!` calls modelled as successive appends to the output string (the
`fmt::Error` branch of `write!` into a `String` is unreachable and not
modelled): the heading, the optional description, then one fenced `lua`
code block per `Extend` of every `Define`. -/
def printDefinition (options : MarkdownOptions) (node : Definition) : String :=
  let headingLevel : Nat := options.heading_level.getD 2
  let s := strRepeat "#" headingLevel ++ " " ++ node.name ++ "\n\n"
  let s :=
    match node.desc with
    | some desc => s ++ desc ++ "\n\n"
    | none => s
  node.defines.foldl
    (fun s d =>
      d.extends_.foldl (fun s e => s ++ "```lua\n" ++ e.view ++ "\n```\n\n") s)
    s

/-- The renderer output format as the specification words it ("a heading
line of `heading_level` `#` characters followed by the name; a blank line;
if `description` present, the description text followed by a blank line;
then, for every Define, for every Extend in that Define (in list order), a
fenced code block tagged as the source language containing the Extend's
`view` text, each followed by a blank line").  Stated independently of the
implementation, to be compared with `printDefinition`. -/
def specRenderDefinition (headingLevel : Nat) (node : Definition) : String :=
  String.mk (List.replicate headingLevel '#') ++ " " ++ node.name ++ "\n\n" ++
    (match node.desc with
     | some desc => desc ++ "\n\n"
     | none => "") ++
    String.join
      ((node.defines.flatMap (fun d => d.extends_)).map
        (fun e => "```lua\n" ++ e.view ++ "\n```\n\n"))

/-! ## JSON decoding (`serde` derives and `deserialize_extends`)

`Json` is the value model for `serde_json`.  Object fields are an ordered
association list; decoding looks a field up by its first occurrence (the
inputs reasoned about have no duplicate keys).  Struct decoding follows the
serde derive: required fields must be present, `Option` fields decode both
an absent field and an explicit `null` to `none`, and unknown fields are
ignored.
-/

inductive Json where
  | null
  | bool (b : Bool)
  | num (n : Int)
  | str (s : String)
  | arr (elems : List Json)
  | obj (fields : List (String × Json))

/-- Look up a field of a JSON object by name (first occurrence). -/
def getField (fields : List (String × Json)) (k : String) : Option Json :=
  match fields with
  | [] => none
  | (k', v) :: rest => if k' = k then some v else getField rest k

/-- A required field: absence is a decode error. -/
def requireField (fields : List (String × Json)) (k : String) :
    Except String Json :=
  match getField fields k with
  | some v => .ok v
  | none => .error ("missing field " ++ k)

/-- Decode a `u64` (a non-negative JSON number). -/
def decodeU64 : Json → Except String Nat
  | .num n => if 0 ≤ n then .ok n.toNat else .error "invalid value: negative"
  | _ => .error "invalid type: expected u64"

/-- Decode a `String`. -/
def decodeString : Json → Except String String
  | .str s => .ok s
  | _ => .error "invalid type: expected string"

/-- Decode an `Option<String>` field: absent or `null` is `none`. -/
def decodeOptString : Option Json → Except String (Option String)
  | none => .ok none
  | some .null => .ok none
  | some j => (decodeString j).map some

/-- Decode an `Option<Vec<α>>` field: absent or `null` is `none`. -/
def decodeOptList {α : Type} (f : Json → Except String α) :
    Option Json → Except String (Option (List α))
  | none => .ok none
  | some .null => .ok none
  | some (.arr l) => (l.mapM f).map some
  | some _ => .error "invalid type: expected array"

/-- The serde spelling of every `DefinitionType` variant
(`rename_all = "lowercase"` plus the explicit `rename` attributes in
`src/lua_cats.rs`). -/
def definitionTypeSpellings : List (String × DefinitionType) :=
  [("binary", .Binary),
   ("doc.alias", .DocAlias),
   ("doc.class", .DocClass),
   ("doc.extends.name", .DocExtendsName),
   ("doc.enum", .DocEnum),
   ("doc.type", .DocType),
   ("function", .Function),
   ("function.return", .FunctionReturn),
   ("integer", .Integer),
   ("local", .Local),
   ("nil", .Nil),
   ("number", .Number),
   ("self", .SelfType),
   ("setfield", .SetField),
   ("setglobal", .SetGlobal),
   ("setmethod", .SetMethod),
   ("string", .String),
   ("table", .Table),
   ("tablefield", .TableField),
   ("type", .TypeDef),
   ("variable", .Variable),
   ("...", .VarArg)]

/-- Look up a spelling in `definitionTypeSpellings`. -/
def lookupDefinitionType (s : String) : Option DefinitionType :=
  match definitionTypeSpellings.find? (fun p => p.1 = s) with
  | some p => some p.2
  | none => none

/-- Decode the closed `DefinitionType` enumeration of `src/lua_cats.rs`: a
string outside the enumeration is a decode error (serde's
"unknown variant"). -/
def decodeDefinitionType : Json → Except String DefinitionType
  | .str s =>
    match lookupDefinitionType s with
    | some t => .ok t
    | none => .error ("unknown variant " ++ s)
  | _ => .error "invalid type: expected string"

/-- Decode `FuncArg` (serde derive in `src/lua_cats.rs`). -/
def decodeFuncArg (j : Json) : Except String FuncArg :=
  match j with
  | .obj fields => do
    let name ← decodeOptString (getField fields "name")
    let lua_type ← decodeDefinitionType (← requireField fields "type")
    let view ← decodeString (← requireField fields "view")
    let start ← decodeU64 (← requireField fields "start")
    let finish ← decodeU64 (← requireField fields "finish")
    .ok { name, lua_type, view, start, finish }
  | _ => .error "invalid type: expected map"

/-- Decode `FuncReturn` (serde derive in `src/lua_cats.rs`). -/
def decodeFuncReturn (j : Json) : Except String FuncReturn :=
  match j with
  | .obj fields => do
    let name ← decodeOptString (getField fields "name")
    let lua_type ← decodeDefinitionType (← requireField fields "type")
    let view ← decodeString (← requireField fields "view")
    .ok { name, lua_type, view }
  | _ => .error "invalid type: expected map"

/-- Decode `Extend` (serde derive in `src/lua_cats.rs`). -/
def decodeExtend (j : Json) : Except String Extend :=
  match j with
  | .obj fields => do
    let start ← decodeU64 (← requireField fields "start")
    let finish ← decodeU64 (← requireField fields "finish")
    let lua_type ← decodeDefinitionType (← requireField fields "type")
    let view ← decodeString (← requireField fields "view")
    let desc ← decodeOptString (getField fields "desc")
    let rawdesc ← decodeOptString (getField fields "rawdesc")
    let args ← decodeOptList decodeFuncArg (getField fields "args")
    let returns ← decodeOptList decodeFuncReturn (getField fields "returns")
    .ok { start, finish, lua_type, view, desc, rawdesc, args, returns }
  | _ => .error "invalid type: expected map"

/-- The visitor dispatch of `deserialize_extends` (`src/lua_cats.rs`) on a
present `extends` value, as driven by `serde_json`'s `deserialize_any`:
an array is decoded elementwise (`visit_seq`), a single map becomes a
one-element list (`visit_map`), and every other value — `null` included —
is dispatched to a `Visitor` method the code leaves at its default erroring
implementation (`serde_json` sends `null` to `visit_unit`; the visitor only
overrides `visit_none`, which `deserialize_any` never calls). -/
def deserializeExtendsValue : Json → Except String (List Extend)
  | .arr l => l.mapM decodeExtend
  | .obj fields => (decodeExtend (.obj fields)).map (fun e => [e])
  | _ => .error "invalid type, expected array or map or null"

/-- The full decoding of the `extends` field of `Define`
(`#[serde(default)] #[serde(deserialize_with = "deserialize_extends")]`):
an absent field yields the default empty list without entering
`deserialize_extends`; a present value goes through the visitor. -/
def deserializeExtends : Option Json → Except String (List Extend)
  | none => .ok []
  | some j => deserializeExtendsValue j

/-- Decode `Define` (serde derive in `src/lua_cats.rs`). -/
def decodeDefine (j : Json) : Except String Define :=
  match j with
  | .obj fields => do
    let start ← decodeU64 (← requireField fields "start")
    let finish ← decodeU64 (← requireField fields "finish")
    let lua_type ← decodeDefinitionType (← requireField fields "type")
    let file ← decodeString (← requireField fields "file")
    let extends_ ← deserializeExtends (getField fields "extends")
    .ok { start, finish, lua_type, file, extends_ }
  | _ => .error "invalid type: expected map"

/-- Decode `Definition` (serde derive in `src/lua_cats.rs`): the `kind`
("type") field must map onto the closed `DefinitionType` enumeration. -/
def decodeDefinition (j : Json) : Except String Definition :=
  match j with
  | .obj fields => do
    let desc ← decodeOptString (getField fields "desc")
    let rawdesc ← decodeOptString (getField fields "rawdesc")
    let name ← decodeString (← requireField fields "name")
    let lua_type ← decodeDefinitionType (← requireField fields "type")
    let defines ← (match getField fields "defines" with
      | some (.arr l) => l.mapM decodeDefine
      | some _ => .error "invalid type: expected array"
      | none => .error "missing field defines")
    .ok { desc, rawdesc, name, lua_type, defines }
  | _ => .error "invalid type: expected map"

/-! ## The `src/types.rs` record model

`src/types.rs` declares a parallel family of record structs that the crate's
`lib.rs`/`luals.rs` decoding paths use (`generate_docs` parses the external
tool's JSON into `Vec<types::Definition>`).  There the kind field is
`type DefinitionType = String` — a plain string, not the closed enumeration
of `src/lua_cats.rs` — so its decoder accepts any kind spelling.
-/

namespace Types

/-- `FuncArg` from `src/types.rs` (`lua_type` is a plain string there). -/
structure FuncArg where
  name : Option String
  lua_type : String
  view : String
  start : Nat
  finish : Nat
deriving DecidableEq, Repr

/-- `FuncReturn` from `src/types.rs`. -/
structure FuncReturn where
  name : Option String
  lua_type : String
  view : String
deriving DecidableEq, Repr

/-- `Extend` from `src/types.rs`. -/
structure Extend where
  start : Nat
  finish : Nat
  lua_type : String
  view : String
  desc : Option String
  rawdesc : Option String
  args : Option (List FuncArg)
  returns : Option (List FuncReturn)
deriving DecidableEq, Repr

/-- `Define` from `src/types.rs`. -/
structure Define where
  start : Nat
  finish : Nat
  lua_type : String
  file : String
  extends_ : List Extend
deriving DecidableEq, Repr

/-- `Definition` from `src/types.rs`. -/
structure Definition where
  desc : Option String
  rawdesc : Option String
  name : String
  lua_type : String
  defines : List Define
deriving DecidableEq, Repr

/-- The kind decoder of `src/types.rs`: `type DefinitionType = String`, so
any JSON string is accepted verbatim. -/
def decodeDefinitionType : Json → Except String String :=
  decodeString

/-- Decode `types::FuncArg`. -/
def decodeFuncArg (j : Json) : Except String FuncArg :=
  match j with
  | .obj fields => do
    let name ← decodeOptString (getField fields "name")
    let lua_type ← decodeDefinitionType (← requireField fields "type")
    let view ← decodeString (← requireField fields "view")
    let start ← decodeU64 (← requireField fields "start")
    let finish ← decodeU64 (← requireField fields "finish")
    .ok { name, lua_type, view, start, finish }
  | _ => .error "invalid type: expected map"

/-- Decode `types::FuncReturn`. -/
def decodeFuncReturn (j : Json) : Except String FuncReturn :=
  match j with
  | .obj fields => do
    let name ← decodeOptString (getField fields "name")
    let lua_type ← decodeDefinitionType (← requireField fields "type")
    let view ← decodeString (← requireField fields "view")
    .ok { name, lua_type, view }
  | _ => .error "invalid type: expected map"

/-- Decode `types::Extend`. -/
def decodeExtend (j : Json) : Except String Extend :=
  match j with
  | .obj fields => do
    let start ← decodeU64 (← requireField fields "start")
    let finish ← decodeU64 (← requireField fields "finish")
    let lua_type ← decodeDefinitionType (← requireField fields "type")
    let view ← decodeString (← requireField fields "view")
    let desc ← decodeOptString (getField fields "desc")
    let rawdesc ← decodeOptString (getField fields "rawdesc")
    let args ← decodeOptList decodeFuncArg (getField fields "args")
    let returns ← decodeOptList decodeFuncReturn (getField fields "returns")
    .ok { start, finish, lua_type, view, desc, rawdesc, args, returns }
  | _ => .error "invalid type: expected map"

/-- The visitor dispatch of `deserialize_extends` as duplicated in
`src/types.rs` (same shape as the `src/lua_cats.rs` one). -/
def deserializeExtendsValue : Json → Except String (List Extend)
  | .arr l => l.mapM decodeExtend
  | .obj fields => (decodeExtend (.obj fields)).map (fun e => [e])
  | _ => .error "invalid type, expected array or map or null"

/-- The `extends` field decoding of `types::Define`. -/
def deserializeExtends : Option Json → Except String (List Extend)
  | none => .ok []
  | some j => deserializeExtendsValue j

/-- Decode `types::Define`. -/
def decodeDefine (j : Json) : Except String Define :=
  match j with
  | .obj fields => do
    let start ← decodeU64 (← requireField fields "start")
    let finish ← decodeU64 (← requireField fields "finish")
    let lua_type ← decodeDefinitionType (← requireField fields "type")
    let file ← decodeString (← requireField fields "file")
    let extends_ ← deserializeExtends (getField fields "extends")
    .ok { start, finish, lua_type, file, extends_ }
  | _ => .error "invalid type: expected map"

/-- Decode `types::Definition`: the kind field is a plain string, so an
unrecognized kind is accepted silently. -/
def decodeDefinition (j : Json) : Except String Definition :=
  match j with
  | .obj fields => do
    let desc ← decodeOptString (getField fields "desc")
    let rawdesc ← decodeOptString (getField fields "rawdesc")
    let name ← decodeString (← requireField fields "name")
    let lua_type ← decodeDefinitionType (← requireField fields "type")
    let defines ← (match getField fields "defines" with
      | some (.arr l) => l.mapM decodeDefine
      | some _ => .error "invalid type: expected array"
      | none => .error "missing field defines")
    .ok { desc, rawdesc, name, lua_type, defines }
  | _ => .error "invalid type: expected map"

end Types

/-! ## Forest traversal -/

mutual

/-- Every node of the tree rooted at a meta file: the file itself and,
recursively, every node below its sub-files. -/
def MetaFile.allNodes : MetaFile → List MetaFile
  | .mk p d n subs => .mk p d n subs :: allNodesList subs

/-- Every node of a forest of meta files. -/
def allNodesList : List MetaFile → List MetaFile
  | [] => []
  | f :: fs => f.allNodes ++ allNodesList fs

end

/-! ## Invariant predicates and concrete inputs used by the claim theorems -/

/-- A grouped `(start, definition)` entry filed under path `p` is justified:
the definition occurs in the input list and one of its defines has that
start offset and resolves to `p`. -/
def EntryOk (docs : List Definition) (p : List String)
    (e : Nat × Definition) : Prop :=
  e.2 ∈ docs ∧
    ∃ define ∈ e.2.defines,
      define.start = e.1 ∧ parseFileUrl define.file = some p

/-- The entry `v` is present in the bucket keyed `k` of the grouping. -/
def MemEntry (k : List String) (v : Nat × Definition)
    (groups : List (List String × List (Nat × Definition))) : Prop :=
  ∃ g ∈ groups, g.1 = k ∧ v ∈ g.2

/-- The `hello` example of the specification and of
`tests/markdown_print_test.rs`: name `hello`, description `Say hello`, one
`setglobal` define whose single extend views as `function hello()`. -/
def helloDefinition : Definition :=
  { desc := some "Say hello"
    rawdesc := some "Say hello"
    name := "hello"
    lua_type := .Variable
    defines :=
      [{ start := 30009
         finish := 30014
         lua_type := .SetGlobal
         file := "file:///Users/matt/Code/luacats-doc/./test_doc/hello/hello.lua"
         extends_ :=
           [{ start := 30000
              finish := 30020
              lua_type := .Function
              view := "function hello()"
              desc := some "Say hello"
              rawdesc := some "Say hello"
              args := some []
              returns := none }] }] }

/-- The definition shape used by `test::load_workspace`
(`src/workspace.rs`): a single `nil` define at offsets 0–10 in the given
file. -/
def testDefinition (file : String) : Definition :=
  { desc := none
    rawdesc := none
    name := "test"
    lua_type := .Nil
    defines :=
      [{ start := 0, finish := 10, lua_type := .Nil, file := file,
         extends_ := [] }] }

/-- The input of claim C2 and of `test::load_workspace`, in the order the
test lists the files. -/
def c2Docs : List Definition :=
  [testDefinition "file:///my/definitions/path/standard.lua",
   testDefinition "file:///my/definitions/path/renoise.lua",
   testDefinition "file:///my/definitions/path/renoise/midi.lua",
   testDefinition "file:///my/definitions/path/bit.lua"]

/-- A JSON definition object whose kind string `bogus` lies outside the
closed `DefinitionType` enumeration. -/
def c4Input : Json :=
  .obj [("name", .str "x"), ("type", .str "bogus"), ("defines", .arr [])]

/-- A function-kinded define at the given file and start offset (used by
the witness workspaces). -/
def defineAt (file : String) (start : Nat) : Define :=
  { start := start, finish := start + 1, lua_type := .Function, file := file,
    extends_ := [] }

/-- A definition named `x` defined in both `a.lua` (offset 9) and `b.lua`
(offset 1) under the root `/r`. -/
def defX : Definition :=
  { desc := none, rawdesc := none, name := "x", lua_type := .Function,
    defines := [defineAt "file:///r/a.lua" 9, defineAt "file:///r/b.lua" 1] }

/-- A definition named `y` defined in `a.lua` at offset 3. -/
def defY : Definition :=
  { desc := none, rawdesc := none, name := "y", lua_type := .Function,
    defines := [defineAt "file:///r/a.lua" 3] }

/-- The witness input: `x` before `y`. -/
def docsW : List Definition := [defX, defY]

/-- The `a.lua` node of the loaded witness workspace: `y` (start 3) before
`x` (start 9). -/
def nodeA : MetaFile := .mk ["a.lua"] [defY, defX] 0 []

/-- The `b.lua` node of the loaded witness workspace. -/
def nodeB : MetaFile := .mk ["b.lua"] [defX] 0 []

/-- The workspace produced by loading `docsW` into a fresh workspace rooted
at `/r`. -/
def wsW : Workspace :=
  { root := ["r"], files := [nodeA, nodeB] }

/-- A definition whose single define's file URL is the example workspace
root of claim C2 itself: a valid absolute `file://` URL whose resolved
path strips to the empty relative path. -/
def rootDoc : Definition :=
  { desc := none, rawdesc := none, name := "root", lua_type := .Nil,
    defines := [{ start := 0, finish := 1, lua_type := .Nil,
                  file := "file:///my/definitions/path", extends_ := [] }] }

/-- A definition whose single define has an unparseable file URL. -/
def badDoc : Definition :=
  { desc := none, rawdesc := none, name := "bad", lua_type := .Function,
    defines := [defineAt "nota url" 0] }

/-- A top-level `renoise.lua` meta file with no definitions. -/
def renoiseTop : MetaFile := .mk ["renoise.lua"] [] 0 []

/-- A depth-1 `renoise/midi.lua` meta file with no definitions. -/
def midiFile : MetaFile := .mk ["renoise", "midi.lua"] [] 1 []

/-- The grouping produced from `docsW`: `a.lua` holds `(9, x)` then
`(3, y)` in encounter order, `b.lua` holds `(1, x)`. -/
def groupsW : List (List String × List (Nat × Definition)) :=
  [(["r", "a.lua"], [(9, defX), (3, defY)]),
   (["r", "b.lua"], [(1, defX)])]

/-- The meta file built from the `a.lua` group. -/
def bfA : MetaFile := metaFileFrom ["a.lua"] [(9, defX), (3, defY)]

/-- The meta file built from the `b.lua` group. -/
def bfB : MetaFile := metaFileFrom ["b.lua"] [(1, defX)]

theorem allNodes_def (f : MetaFile) :
    f.allNodes = f :: allNodesList f.subFiles := by
  cases f
  rfl

theorem allNodesList_cons (f : MetaFile) (fs : List MetaFile) :
    allNodesList (f :: fs) = f.allNodes ++ allNodesList fs :=
  rfl

theorem allNodesList_append (fs gs : List MetaFile) :
    allNodesList (fs ++ gs) = allNodesList fs ++ allNodesList gs := by
  induction fs with
  | nil => rfl
  | cons f fs ih =>
    simp [allNodesList_cons, ih]

/-! ## Lemmas about the stable sorts -/

theorem insertByStart_perm (x : Nat × Definition)
    (l : List (Nat × Definition)) : List.Perm (insertByStart x l) (x :: l) := by
  induction l with
  | nil => exact .refl _
  | cons y ys ih =>
    by_cases h : x.1 ≤ y.1
    · simp only [insertByStart, if_pos h]
      exact .refl _
    · simp only [insertByStart, if_neg h]
      exact (ih.cons y).trans (List.Perm.swap x y ys)

theorem sortByStart_perm (l : List (Nat × Definition)) :
    List.Perm (sortByStart l) l := by
  induction l with
  | nil => exact .refl _
  | cons x xs ih =>
    show List.Perm (insertByStart x (sortByStart xs)) (x :: xs)
    exact (insertByStart_perm x _).trans (ih.cons x)

theorem insertByStart_pairwise (x : Nat × Definition)
    (l : List (Nat × Definition))
    (h : l.Pairwise (fun a b => a.1 ≤ b.1)) :
    (insertByStart x l).Pairwise (fun a b => a.1 ≤ b.1) := by
  induction l with
  | nil => simp [insertByStart]
  | cons y ys ih =>
    rcases List.pairwise_cons.mp h with ⟨hy, hys⟩
    by_cases hxy : x.1 ≤ y.1
    · simp only [insertByStart, if_pos hxy]
      refine List.pairwise_cons.mpr ⟨?_, h⟩
      intro z hz
      rcases List.mem_cons.mp hz with rfl | hz
      · exact hxy
      · exact Nat.le_trans hxy (hy z hz)
    · simp only [insertByStart, if_neg hxy]
      refine List.pairwise_cons.mpr ⟨?_, ih hys⟩
      intro z hz
      rcases List.mem_cons.mp ((insertByStart_perm x ys).mem_iff.mp hz)
        with rfl | hz
      · exact Nat.le_of_lt (Nat.lt_of_not_le hxy)
      · exact hy z hz

theorem sortByStart_pairwise (l : List (Nat × Definition)) :
    (sortByStart l).Pairwise (fun a b => a.1 ≤ b.1) := by
  induction l with
  | nil => simp [sortByStart]
  | cons x xs ih => exact insertByStart_pairwise x _ ih

theorem insertFile_perm (x : MetaFile) (l : List MetaFile) :
    List.Perm (insertFile x l) (x :: l) := by
  induction l with
  | nil => exact .refl _
  | cons y ys ih =>
    by_cases h : fileLe x y
    · simp only [insertFile, if_pos h]
      exact .refl _
    · simp only [insertFile, if_neg h]
      exact (ih.cons y).trans (List.Perm.swap x y ys)

theorem sortFiles_perm (l : List MetaFile) : List.Perm (sortFiles l) l := by
  induction l with
  | nil => exact .refl _
  | cons x xs ih =>
    show List.Perm (insertFile x (sortFiles xs)) (x :: xs)
    exact (insertFile_perm x _).trans (ih.cons x)

/-! ## Lemmas about the parent scan of `add_file` -/

theorem insertIntoParent_eq_none_iff (f : MetaFile) (fs : List MetaFile) :
    insertIntoParent f fs = none ↔ ∀ g ∈ fs, ¬ isParentOf g f := by
  induction fs with
  | nil => simp [insertIntoParent]
  | cons g gs ih =>
    by_cases hp : isParentOf g f
    · simp [insertIntoParent, if_pos hp, hp]
    · simp only [insertIntoParent, if_neg hp]
      constructor
      · intro h g' hg'
        rcases List.mem_cons.mp hg' with rfl | hg'
        · exact hp
        · exact (ih.mp (by
            cases hi : insertIntoParent f gs with
            | none => rfl
            | some gs' => rw [hi] at h; simp at h)) g' hg'
      · intro h
        have : insertIntoParent f gs = none :=
          ih.mpr (fun g' hg' => h g' (List.mem_cons_of_mem _ hg'))
        rw [this]
        rfl

theorem insertIntoParent_first_match (f g : MetaFile) :
    ∀ (l₁ l₂ : List MetaFile), (∀ g' ∈ l₁, ¬ isParentOf g' f) →
      isParentOf g f →
      insertIntoParent f (l₁ ++ g :: l₂) = some (l₁ ++ g.addSubFile f :: l₂) := by
  intro l₁
  induction l₁ with
  | nil =>
    intro l₂ _ hg
    simp [insertIntoParent, if_pos hg]
  | cons g' l₁ ih =>
    intro l₂ h hg
    have hg' : ¬ isParentOf g' f := h g' (List.mem_cons_self _ _)
    simp only [List.cons_append, insertIntoParent, if_neg hg', List.append_eq]
    rw [ih l₂ (fun x hx => h x (List.mem_cons_of_mem _ hx)) hg]
    rfl

/-! ## String lemmas for the printer -/

theorem strJoin_foldl (xs : List String) :
    ∀ s : String, xs.foldl (· ++ ·) s = s ++ xs.foldl (· ++ ·) "" := by
  induction xs with
  | nil =>
    intro s
    simp [String.append_empty]
  | cons x xs ih =>
    intro s
    simp only [List.foldl_cons]
    rw [ih (s ++ x), ih ("" ++ x), String.empty_append, String.append_assoc]

theorem strJoin_cons (x : String) (xs : List String) :
    String.join (x :: xs) = x ++ String.join xs := by
  show (x :: xs).foldl (· ++ ·) "" = x ++ xs.foldl (· ++ ·) ""
  simp only [List.foldl_cons]
  rw [strJoin_foldl xs ("" ++ x), String.empty_append]

theorem strJoin_append (xs ys : List String) :
    String.join (xs ++ ys) = String.join xs ++ String.join ys := by
  induction xs with
  | nil =>
    rw [List.nil_append, show String.join ([] : List String) = "" from rfl,
      String.empty_append]
  | cons x xs ih =>
    simp only [List.cons_append, strJoin_cons, ih, String.append_assoc]

theorem strRepeat_hash (n : Nat) :
    strRepeat "#" n = String.mk (List.replicate n '#') := by
  induction n with
  | zero => rfl
  | succ k ih =>
    show "#" ++ strRepeat "#" k = String.mk (List.replicate (k + 1) '#')
    rw [ih, List.replicate_succ]
    rfl

theorem foldl_append_blocks {α : Type} (f : α → String) (l : List α) :
    ∀ s : String,
      l.foldl (fun s x => s ++ f x) s = s ++ String.join (l.map f) := by
  induction l with
  | nil =>
    intro s
    show s = s ++ String.join []
    rw [String.join, List.foldl_nil, String.append_empty]
  | cons x xs ih =>
    intro s
    simp only [List.foldl_cons, List.map_cons, strJoin_cons]
    rw [ih (s ++ f x), String.append_assoc]

theorem foldl_nested_blocks {α β : Type} (g : α → List β) (f : β → String)
    (l : List α) :
    ∀ s : String,
      l.foldl (fun s a => (g a).foldl (fun s b => s ++ f b) s) s
        = s ++ String.join ((l.flatMap g).map f) := by
  induction l with
  | nil =>
    intro s
    show s = s ++ String.join ((List.flatMap [] g).map f)
    rw [List.flatMap_nil, List.map_nil, String.join, List.foldl_nil,
      String.append_empty]
  | cons a l ih =>
    intro s
    simp only [List.foldl_cons, List.flatMap_cons, List.map_append,
      strJoin_append]
    rw [foldl_append_blocks, ih, String.append_assoc]

/-! ## Claim C5: the Markdown output format -/

/-- Claim C5: for every `Definition` and heading level (default 2 when
unspecified), `print_definition` produces exactly the heading line of
`heading_level` `#` characters, a space and the name followed by a blank
line, then the description followed by a blank line only when present, then
one ```` ```lua ```` fenced code block per `Extend` of every `Define` in
order, each followed by a blank line; in particular the `hello` example
renders at the default level to the exact string of the specification. -/
theorem C5_print_definition_format :
    (∀ (options : MarkdownOptions) (node : Definition),
        printDefinition options node
          = specRenderDefinition (options.heading_level.getD 2) node)
    ∧ printDefinition ⟨none⟩ helloDefinition
        = "## hello\n\nSay hello\n\n```lua\nfunction hello()\n```\n\n" := by
  constructor
  · intro options node
    cases hd : node.desc with
    | none =>
      simp only [printDefinition, specRenderDefinition, hd, strRepeat_hash,
        String.append_assoc]
      rw [foldl_nested_blocks (fun d : Define => d.extends_)
        (fun e : Extend => "```lua\n" ++ (e.view ++ "\n```\n\n"))]
      simp [String.append_assoc, String.append_empty]
    | some d =>
      simp only [printDefinition, specRenderDefinition, hd, strRepeat_hash,
        String.append_assoc]
      rw [foldl_nested_blocks (fun d : Define => d.extends_)
        (fun e : Extend => "```lua\n" ++ (e.view ++ "\n```\n\n"))]
      simp [String.append_assoc]
  · rfl

/-! ## Lemmas about the grouping loop -/

theorem insertGrouped_forall {P : List String → Nat × Definition → Prop}
    (k : List String) (v : Nat × Definition) :
    ∀ (acc : List (List String × List (Nat × Definition))),
      (∀ g ∈ acc, ∀ e ∈ g.2, P g.1 e) → P k v →
      ∀ g ∈ insertGrouped k v acc, ∀ e ∈ g.2, P g.1 e := by
  intro acc
  induction acc with
  | nil =>
    intro _ hv g hg e he
    simp only [insertGrouped, List.mem_singleton] at hg
    subst hg
    simp only [List.mem_singleton] at he
    subst he
    exact hv
  | cons gh rest ih =>
    obtain ⟨k', vs⟩ := gh
    intro hacc hv g hg e he
    by_cases hk : k' = k
    · simp only [insertGrouped, if_pos hk] at hg
      rcases List.mem_cons.mp hg with rfl | hg
      · rcases List.mem_append.mp he with he | he
        · exact hacc (k', vs) (List.mem_cons_self _ _) e he
        · subst hk
          obtain rfl := List.mem_singleton.mp he
          exact hv
      · exact hacc g (List.mem_cons_of_mem _ hg) e he
    · simp only [insertGrouped, if_neg hk] at hg
      rcases List.mem_cons.mp hg with rfl | hg
      · exact hacc (k', vs) (List.mem_cons_self _ _) e he
      · exact ih (fun g' hg' => hacc g' (List.mem_cons_of_mem _ hg')) hv
          g hg e he

theorem addDefinesToGroups_forall {P : List String → Nat × Definition → Prop}
    (definition : Definition) :
    ∀ (defs : List Define) (acc res : List (List String × List (Nat × Definition))),
      addDefinesToGroups definition acc defs = .ok res →
      (∀ g ∈ acc, ∀ e ∈ g.2, P g.1 e) →
      (∀ define ∈ defs, ∀ p, parseFileUrl define.file = some p →
        P p (define.start, definition)) →
      ∀ g ∈ res, ∀ e ∈ g.2, P g.1 e := by
  intro defs
  induction defs with
  | nil =>
    intro acc res hres hacc _
    simp only [addDefinesToGroups, Except.ok.injEq] at hres
    subst hres
    exact hacc
  | cons df rest ih =>
    intro acc res hres hacc hdefs
    cases hp : parseFileUrl df.file with
    | none => simp [addDefinesToGroups, hp] at hres
    | some p =>
      simp only [addDefinesToGroups, hp] at hres
      exact ih _ res hres
        (insertGrouped_forall p (df.start, definition) acc hacc
          (hdefs df (List.mem_cons_self _ _) p hp))
        (fun d hd => hdefs d (List.mem_cons_of_mem _ hd))

theorem groupDefsByFileAux_forall {P : List String → Nat × Definition → Prop} :
    ∀ (docs : List Definition)
      (acc res : List (List String × List (Nat × Definition))),
      groupDefsByFileAux acc docs = .ok res →
      (∀ g ∈ acc, ∀ e ∈ g.2, P g.1 e) →
      (∀ d ∈ docs, ∀ define ∈ d.defines, ∀ p,
        parseFileUrl define.file = some p → P p (define.start, d)) →
      ∀ g ∈ res, ∀ e ∈ g.2, P g.1 e := by
  intro docs
  induction docs with
  | nil =>
    intro acc res hres hacc _
    simp only [groupDefsByFileAux, Except.ok.injEq] at hres
    subst hres
    exact hacc
  | cons d ds ih =>
    intro acc res hres hacc hdocs
    cases ha : addDefinesToGroups d acc d.defines with
    | error e => simp [groupDefsByFileAux, ha] at hres
    | ok acc' =>
      simp only [groupDefsByFileAux, ha] at hres
      exact ih acc' res hres
        (addDefinesToGroups_forall d d.defines acc acc' ha hacc
          (fun define hdf p hp =>
            hdocs d (List.mem_cons_self _ _) define hdf p hp))
        (fun d' hd' => hdocs d' (List.mem_cons_of_mem _ hd'))

/-- Soundness of the grouping: every grouped entry is justified by a define
of an input definition resolving to the entry's key. -/
theorem groupDefsByFile_sound (docs : List Definition)
    (groups : List (List String × List (Nat × Definition)))
    (h : groupDefsByFile docs = .ok groups) :
    ∀ g ∈ groups, ∀ e ∈ g.2, EntryOk docs g.1 e := by
  have base : ∀ g ∈ ([] : List (List String × List (Nat × Definition))),
      ∀ e ∈ g.2, EntryOk docs g.1 e := by simp
  exact groupDefsByFileAux_forall docs [] groups h base
    (fun d hd define hdf p hp => ⟨hd, define, hdf, rfl, hp⟩)

theorem mem_insertGrouped_self (k : List String) (v : Nat × Definition) :
    ∀ (acc : List (List String × List (Nat × Definition))),
      MemEntry k v (insertGrouped k v acc) := by
  intro acc
  induction acc with
  | nil =>
    exact ⟨(k, [v]), List.mem_singleton.mpr rfl, rfl, List.mem_singleton.mpr rfl⟩
  | cons gh rest ih =>
    obtain ⟨k', vs⟩ := gh
    by_cases hk : k' = k
    · refine ⟨(k', vs ++ [v]), ?_, hk, List.mem_append_right _ (List.mem_singleton.mpr rfl)⟩
      simp [insertGrouped, if_pos hk]
    · obtain ⟨g, hg, hgk, hv⟩ := ih
      refine ⟨g, ?_, hgk, hv⟩
      simp only [insertGrouped, if_neg hk]
      exact List.mem_cons_of_mem _ hg

theorem mem_insertGrouped_mono (k : List String) (v : Nat × Definition)
    (k' : List String) (v' : Nat × Definition) :
    ∀ (acc : List (List String × List (Nat × Definition))),
      MemEntry k' v' acc → MemEntry k' v' (insertGrouped k v acc) := by
  intro acc
  induction acc with
  | nil =>
    intro h
    obtain ⟨g, hg, _, _⟩ := h
    exact absurd hg (List.not_mem_nil g)
  | cons gh rest ih =>
    obtain ⟨k₀, vs⟩ := gh
    intro h
    obtain ⟨g, hg, hgk, hv⟩ := h
    by_cases hk : k₀ = k
    · rcases List.mem_cons.mp hg with rfl | hg
      · refine ⟨(k₀, vs ++ [v]), ?_, hgk, List.mem_append_left _ hv⟩
        simp [insertGrouped, if_pos hk]
      · refine ⟨g, ?_, hgk, hv⟩
        simp only [insertGrouped, if_pos hk]
        exact List.mem_cons_of_mem _ hg
    · rcases List.mem_cons.mp hg with rfl | hg
      · refine ⟨(k₀, vs), ?_, hgk, hv⟩
        simp only [insertGrouped, if_neg hk]
        exact List.mem_cons_self _ _
      · obtain ⟨g', hg', hgk', hv'⟩ := ih ⟨g, hg, hgk, hv⟩
        refine ⟨g', ?_, hgk', hv'⟩
        simp only [insertGrouped, if_neg hk]
        exact List.mem_cons_of_mem _ hg'

theorem addDefinesToGroups_mono (definition : Definition) :
    ∀ (defs : List Define) (acc res : List (List String × List (Nat × Definition))),
      addDefinesToGroups definition acc defs = .ok res →
      ∀ k v, MemEntry k v acc → MemEntry k v res := by
  intro defs
  induction defs with
  | nil =>
    intro acc res hres k v h
    simp only [addDefinesToGroups, Except.ok.injEq] at hres
    subst hres
    exact h
  | cons df rest ih =>
    intro acc res hres k v h
    cases hp : parseFileUrl df.file with
    | none => simp [addDefinesToGroups, hp] at hres
    | some p =>
      simp only [addDefinesToGroups, hp] at hres
      exact ih _ res hres k v (mem_insertGrouped_mono p _ k v acc h)

theorem addDefinesToGroups_mem (definition : Definition) :
    ∀ (defs : List Define) (acc res : List (List String × List (Nat × Definition))),
      addDefinesToGroups definition acc defs = .ok res →
      ∀ define ∈ defs, ∀ p, parseFileUrl define.file = some p →
        MemEntry p (define.start, definition) res := by
  intro defs
  induction defs with
  | nil =>
    intro acc res _ define hdf
    exact absurd hdf (List.not_mem_nil define)
  | cons df rest ih =>
    intro acc res hres define hdf p hp
    cases hq : parseFileUrl df.file with
    | none => simp [addDefinesToGroups, hq] at hres
    | some q =>
      simp only [addDefinesToGroups, hq] at hres
      rcases List.mem_cons.mp hdf with rfl | hdf
      · have hpq : q = p := by rw [hq] at hp; exact (Option.some.injEq _ _ ▸ hp)
        subst hpq
        exact addDefinesToGroups_mono definition rest _ res hres q _
          (mem_insertGrouped_self q (define.start, definition) acc)
      · exact ih _ res hres define hdf p hp

theorem groupDefsByFileAux_mono :
    ∀ (docs : List Definition)
      (acc res : List (List String × List (Nat × Definition))),
      groupDefsByFileAux acc docs = .ok res →
      ∀ k v, MemEntry k v acc → MemEntry k v res := by
  intro docs
  induction docs with
  | nil =>
    intro acc res hres k v h
    simp only [groupDefsByFileAux, Except.ok.injEq] at hres
    subst hres
    exact h
  | cons d ds ih =>
    intro acc res hres k v h
    cases ha : addDefinesToGroups d acc d.defines with
    | error e => simp [groupDefsByFileAux, ha] at hres
    | ok acc' =>
      simp only [groupDefsByFileAux, ha] at hres
      exact ih acc' res hres k v
        (addDefinesToGroups_mono d d.defines acc acc' ha k v h)

/-- Completeness of the grouping: every define of every input definition
whose URL resolves contributes its `(start, definition)` entry to the
bucket of its resolved path. -/
theorem groupDefsByFile_complete (docs : List Definition)
    (groups : List (List String × List (Nat × Definition)))
    (h : groupDefsByFile docs = .ok groups) :
    ∀ d ∈ docs, ∀ define ∈ d.defines, ∀ p,
      parseFileUrl define.file = some p →
      MemEntry p (define.start, d) groups := by
  suffices haux : ∀ (ds : List Definition)
      (acc res : List (List String × List (Nat × Definition))),
      groupDefsByFileAux acc ds = .ok res →
      ∀ d ∈ ds, ∀ define ∈ d.defines, ∀ p,
        parseFileUrl define.file = some p →
        MemEntry p (define.start, d) res by
    exact haux docs [] groups h
  intro ds
  induction ds with
  | nil =>
    intro acc res _ d hd
    exact absurd hd (List.not_mem_nil d)
  | cons d₀ ds ih =>
    intro acc res hres d hd define hdf p hp
    cases ha : addDefinesToGroups d₀ acc d₀.defines with
    | error e => simp [groupDefsByFileAux, ha] at hres
    | ok acc' =>
      simp only [groupDefsByFileAux, ha] at hres
      rcases List.mem_cons.mp hd with rfl | hd
      · exact groupDefsByFileAux_mono ds acc' res hres p _
          (addDefinesToGroups_mem d d.defines acc acc' ha define hdf p hp)
      · exact ih acc' res hres d hd define hdf p hp

/-! ## Error characterization of the grouping -/

theorem addDefinesToGroups_error_iff (definition : Definition) :
    ∀ (defs : List Define) (acc : List (List String × List (Nat × Definition))),
      (∃ e, addDefinesToGroups definition acc defs = .error e)
        ↔ ∃ define ∈ defs, parseFileUrl define.file = none := by
  intro defs
  induction defs with
  | nil =>
    intro acc
    simp [addDefinesToGroups]
  | cons df rest ih =>
    intro acc
    cases hp : parseFileUrl df.file with
    | none =>
      simp only [addDefinesToGroups, hp]
      exact ⟨fun _ => ⟨df, List.mem_cons_self _ _, hp⟩, fun _ => ⟨"invalid file url", rfl⟩⟩
    | some p =>
      simp only [addDefinesToGroups, hp]
      constructor
      · intro h
        obtain ⟨define, hdf, hnone⟩ := (ih _).mp h
        exact ⟨define, List.mem_cons_of_mem _ hdf, hnone⟩
      · intro h
        obtain ⟨define, hdf, hnone⟩ := h
        rcases List.mem_cons.mp hdf with rfl | hdf
        · rw [hp] at hnone; cases hnone
        · exact (ih _).mpr ⟨define, hdf, hnone⟩

theorem groupDefsByFileAux_error_iff :
    ∀ (docs : List Definition)
      (acc : List (List String × List (Nat × Definition))),
      (∃ e, groupDefsByFileAux acc docs = .error e)
        ↔ ∃ d ∈ docs, ∃ define ∈ d.defines, parseFileUrl define.file = none := by
  intro docs
  induction docs with
  | nil =>
    intro acc
    simp [groupDefsByFileAux]
  | cons d ds ih =>
    intro acc
    cases ha : addDefinesToGroups d acc d.defines with
    | error e =>
      simp only [groupDefsByFileAux, ha]
      constructor
      · intro _
        obtain ⟨define, hdf, hnone⟩ :=
          (addDefinesToGroups_error_iff d d.defines acc).mp ⟨e, ha⟩
        exact ⟨d, List.mem_cons_self _ _, define, hdf, hnone⟩
      · intro _
        exact ⟨e, rfl⟩
    | ok acc' =>
      simp only [groupDefsByFileAux, ha]
      constructor
      · intro h
        obtain ⟨d', hd', define, hdf, hnone⟩ := (ih acc').mp h
        exact ⟨d', List.mem_cons_of_mem _ hd', define, hdf, hnone⟩
      · intro h
        obtain ⟨d', hd', define, hdf, hnone⟩ := h
        rcases List.mem_cons.mp hd' with rfl | hd'
        · exact absurd ((addDefinesToGroups_error_iff d' d'.defines acc).mpr
            ⟨define, hdf, hnone⟩) (by simp [ha])
        · exact (ih acc').mpr ⟨d', hd', define, hdf, hnone⟩

/-! ## Core-permutation lemmas for `add_file`

Inserting a file can extend an existing node's `subFiles` but never changes
any node's core (path, definitions, depth); these lemmas track the multiset
of cores across insertions.
-/

theorem allNodes_mk (p : List String) (d : List Definition) (n : Nat)
    (subs : List MetaFile) :
    (MetaFile.mk p d n subs).allNodes
      = MetaFile.mk p d n subs :: allNodesList subs :=
  rfl

theorem allNodesList_singleton (f : MetaFile) :
    allNodesList [f] = f.allNodes := by
  rw [allNodesList_cons]
  rw [show allNodesList [] = [] from rfl, List.append_nil]

theorem perm_rotate {α : Type} (A B C : List α) :
    List.Perm (A ++ (B ++ C)) (B ++ (A ++ C)) := by
  rw [← List.append_assoc, ← List.append_assoc]
  exact (List.perm_append_comm).append_right C

theorem allNodes_addSubFile_cores (g f : MetaFile) :
    List.Perm ((g.addSubFile f).allNodes.map MetaFile.core)
      ((f.allNodes.map MetaFile.core) ++ (g.allNodes.map MetaFile.core)) := by
  cases g with
  | mk p d n subs =>
    rw [show (MetaFile.mk p d n subs).addSubFile f
        = MetaFile.mk p d n (subs ++ [f]) from rfl,
      allNodes_mk p d n (subs ++ [f]), allNodes_mk p d n subs,
      allNodesList_append, allNodesList_singleton]
    simp only [List.map_cons, List.map_append]
    rw [show MetaFile.core (MetaFile.mk p d n (subs ++ [f]))
        = MetaFile.core (MetaFile.mk p d n subs) from rfl]
    exact ((List.perm_append_comm).cons _).trans List.perm_middle.symm

theorem insertIntoParent_cores (f : MetaFile) :
    ∀ (fs fs' : List MetaFile), insertIntoParent f fs = some fs' →
      List.Perm ((allNodesList fs').map MetaFile.core)
        ((f.allNodes.map MetaFile.core) ++
          ((allNodesList fs).map MetaFile.core)) := by
  intro fs
  induction fs with
  | nil =>
    intro fs' h
    exact Option.noConfusion h
  | cons g gs ih =>
    intro fs' h
    by_cases hp : isParentOf g f
    · simp only [insertIntoParent, if_pos hp, Option.some.injEq] at h
      subst h
      rw [allNodesList_cons, allNodesList_cons, List.map_append,
        List.map_append]
      exact ((allNodes_addSubFile_cores g f).append_right _).trans
        (by rw [List.append_assoc])
    · simp only [insertIntoParent, if_neg hp] at h
      cases hi : insertIntoParent f gs with
      | none => rw [hi] at h; exact Option.noConfusion h
      | some gs' =>
        rw [hi] at h
        obtain rfl := Option.some.inj h
        rw [allNodesList_cons, allNodesList_cons, List.map_append,
          List.map_append]
        exact ((ih gs' hi).append_left _).trans (perm_rotate _ _ _)

theorem addFile_cores (fs : List MetaFile) (f : MetaFile) :
    List.Perm ((allNodesList (addFile fs f)).map MetaFile.core)
      ((f.allNodes.map MetaFile.core) ++
        ((allNodesList fs).map MetaFile.core)) := by
  have happend :
      List.Perm ((allNodesList (fs ++ [f])).map MetaFile.core)
        ((f.allNodes.map MetaFile.core) ++
          ((allNodesList fs).map MetaFile.core)) := by
    rw [allNodesList_append, allNodesList_singleton, List.map_append]
    exact List.perm_append_comm
  unfold addFile
  by_cases hd : f.depth = 0
  · rw [if_pos hd]
    exact happend
  · rw [if_neg hd]
    cases hi : insertIntoParent f fs with
    | some fs' => exact insertIntoParent_cores f fs fs' hi
    | none => exact happend

theorem foldl_addFile_cores :
    ∀ (files fs : List MetaFile),
      List.Perm ((allNodesList (files.foldl addFile fs)).map MetaFile.core)
        ((files.flatMap (fun f => f.allNodes.map MetaFile.core)) ++
          ((allNodesList fs).map MetaFile.core)) := by
  intro files
  induction files with
  | nil =>
    intro fs
    rw [List.foldl_nil, List.flatMap_nil, List.nil_append]
  | cons f files ih =>
    intro fs
    rw [List.foldl_cons, List.flatMap_cons, List.append_assoc]
    exact (ih _).trans
      (((addFile_cores fs f).append_left _).trans (perm_rotate _ _ _))

/-- Every file built from a group is a leaf (its `sub_files` start empty). -/
theorem builtMetaFiles_leaf (root : List String)
    (groups : List (List String × List (Nat × Definition))) :
    ∀ f ∈ builtMetaFiles root groups, f.subFiles = [] := by
  intro f hf
  obtain ⟨g, _, hg⟩ := List.mem_filterMap.mp hf
  cases hs : stripPrefixPath root g.1 with
  | none => rw [hs] at hg; cases hg
  | some rel =>
    rw [hs] at hg
    obtain rfl := Option.some.inj hg
    rfl

theorem flatMap_allNodes_of_leaf :
    ∀ (l : List MetaFile), (∀ f ∈ l, f.subFiles = []) →
      l.flatMap (fun f => f.allNodes.map MetaFile.core)
        = l.map MetaFile.core := by
  intro l
  induction l with
  | nil => intro _; rfl
  | cons f fs ih =>
    intro h
    have hf : f.allNodes = [f] := by
      rw [allNodes_def, h f (List.mem_cons_self _ _)]
      rfl
    rw [List.flatMap_cons, hf, List.map_cons,
      ih (fun g hg => h g (List.mem_cons_of_mem _ hg)), List.map_cons]
    rfl

/-- The cores of the forest produced by `load` are exactly the cores of
the meta files built from the retained groups, together with the cores of
the forest that was already in the workspace. -/
theorem load_cores (ws : Workspace) (docs : List Definition)
    (groups : List (List String × List (Nat × Definition)))
    (hg : groupDefsByFile docs = .ok groups)
    (ws' : Workspace) (h : ws.load docs = .ok ws') :
    List.Perm ((allNodesList ws'.files).map MetaFile.core)
      (((builtMetaFiles ws.root groups).map MetaFile.core) ++
        ((allNodesList ws.files).map MetaFile.core)) := by
  unfold Workspace.load Workspace.loadImpl at h
  rw [hg] at h
  simp only [Except.ok.injEq] at h
  subst h
  have hfold := foldl_addFile_cores
    (sortFiles (builtMetaFiles ws.root groups)) ws.files
  rw [flatMap_allNodes_of_leaf _
    (fun f hf => builtMetaFiles_leaf ws.root groups f
      ((sortFiles_perm _).mem_iff.mp hf))] at hfold
  exact hfold.trans
    (((sortFiles_perm _).map MetaFile.core).append_right _)

/-! ## Helper lemmas about `strip_prefix` and built meta files -/

theorem stripPrefixPath_elim (root p rel : List String)
    (h : stripPrefixPath root p = some rel) :
    root.isPrefixOf p = true ∧ rel = p.drop root.length := by
  unfold stripPrefixPath at h
  by_cases hp : root.isPrefixOf p
  · rw [if_pos hp] at h
    exact ⟨hp, (Option.some.inj h).symm⟩
  · rw [if_neg hp] at h
    cases h

theorem stripPrefixPath_of_isPrefixOf (root p : List String)
    (h : root.isPrefixOf p = true) :
    stripPrefixPath root p = some (p.drop root.length) := by
  unfold stripPrefixPath
  rw [if_pos h]

theorem isPrefixOf_append_drop (root p : List String)
    (h : root.isPrefixOf p = true) :
    root ++ p.drop root.length = p := by
  obtain ⟨t, rfl⟩ := List.isPrefixOf_iff_prefix.mp h
  rw [List.drop_left]

theorem mem_builtMetaFiles (root : List String)
    (groups : List (List String × List (Nat × Definition)))
    (g : List String × List (Nat × Definition)) (rel : List String)
    (hg : g ∈ groups) (hs : stripPrefixPath root g.1 = some rel) :
    metaFileFrom rel g.2 ∈ builtMetaFiles root groups := by
  refine List.mem_filterMap.mpr ⟨g, hg, ?_⟩
  rw [hs]
  rfl

theorem mem_builtMetaFiles_elim (root : List String)
    (groups : List (List String × List (Nat × Definition))) (bf : MetaFile)
    (h : bf ∈ builtMetaFiles root groups) :
    ∃ g ∈ groups, ∃ rel, stripPrefixPath root g.1 = some rel ∧
      bf = metaFileFrom rel g.2 := by
  obtain ⟨g, hg, heq⟩ := List.mem_filterMap.mp h
  cases hs : stripPrefixPath root g.1 with
  | none => rw [hs] at heq; cases heq
  | some rel =>
    rw [hs] at heq
    exact ⟨g, hg, rel, hs, (Option.some.inj heq).symm⟩

/-- Every node of a workspace loaded into a fresh workspace originates from
a retained group: its path is the group's path relativized and its
definitions are the group's entries sorted by start offset. -/
theorem load_new_node_from_group (root : List String) (docs : List Definition)
    (groups : List (List String × List (Nat × Definition)))
    (hg : groupDefsByFile docs = .ok groups)
    (ws' : Workspace) (h : (Workspace.new root).load docs = .ok ws') :
    ∀ mf ∈ allNodesList ws'.files,
      ∃ g ∈ groups, ∃ rel, stripPrefixPath root g.1 = some rel ∧
        mf.path = rel ∧
        mf.definitions = (sortByStart g.2).map (fun x => x.2) := by
  intro mf hmf
  have hperm := load_cores (Workspace.new root) docs groups hg ws' h
  have hmem := hperm.mem_iff.mp (List.mem_map_of_mem MetaFile.core hmf)
  rw [show allNodesList (Workspace.new root).files = [] from rfl,
    List.map_nil, List.append_nil] at hmem
  obtain ⟨bf, hbf, hcore⟩ := List.mem_map.mp hmem
  obtain ⟨g, hgmem, rel, hs, hbfeq⟩ := mem_builtMetaFiles_elim root groups bf hbf
  subst hbfeq
  have hpath : mf.path = rel := by
    have h1 := congrArg (fun x => x.1) hcore
    simpa [MetaFile.core, metaFileFrom, MetaFile.path] using h1.symm
  have hdefs : mf.definitions = (sortByStart g.2).map (fun x => x.2) := by
    have h2 := congrArg (fun x => x.2.1) hcore
    simpa [MetaFile.core, metaFileFrom, MetaFile.definitions] using h2.symm
  exact ⟨g, hgmem, rel, hs, hpath, hdefs⟩

/-! ## Claim C2: the four-file example workspace -/

/-- Claim C2: loading the four definitions located at `bit.lua`,
`renoise.lua`, `renoise/midi.lua` and `standard.lua` under the root
`/my/definitions/path` yields exactly the top-level files
`[bit.lua, renoise.lua, standard.lua]` in alphabetical order, where
`renoise.lua` has exactly one sub-file `midi.lua` and the others have
none. -/
theorem C2_workspace_layout :
    ((Workspace.new ["my", "definitions", "path"]).load c2Docs).map
        (fun ws => (ws.files.map MetaFile.fileName,
                    ws.files.map (fun f => f.subFiles.map MetaFile.fileName)))
      = .ok (["bit.lua", "renoise.lua", "standard.lua"],
             [[], ["midi.lua"], []]) :=
  rfl

/-! ## Claim C10: an error leaves the workspace unchanged -/

/-- Claim C10: when `Workspace::load` returns an error, the workspace's
file list is exactly what it was before the call (the fallible grouping
loop runs before `self.files` is first touched), so no partial workspace is
observable. -/
theorem C10_load_error_leaves_workspace_unchanged :
    ∀ (ws : Workspace) (docs : List Definition) (e : String),
      (ws.loadImpl docs).1 = .error e → (ws.loadImpl docs).2 = ws := by
  intro ws docs e h
  unfold Workspace.loadImpl at h ⊢
  cases hg : groupDefsByFile docs with
  | error e' => rfl
  | ok groups =>
    rw [hg] at h
    cases h

/-- Witness for C10: a fresh workspace rooted at `/r` loaded with a
definition whose define has the unparseable file string `nota url` errors
and is left with its original (empty) file list. -/
theorem C10_witness :
    ((Workspace.new ["r"]).loadImpl [badDoc]).1 = .error "invalid file url"
    ∧ ((Workspace.new ["r"]).loadImpl [badDoc]).2 = Workspace.new ["r"] :=
  ⟨rfl, C10_load_error_leaves_workspace_unchanged (Workspace.new ["r"])
    [badDoc] "invalid file url" rfl⟩

/-! ## Claim C1: insertion behaviour of `add_file` -/

/-- Claim C1: a meta file of positive depth is appended as a sub-file of
the first top-level file at depth − 1 whose file stem equals the file's
containing-directory name (the linear-scan domain of `add_file` is the
workspace's top-level list); when no such top-level file exists, it is
appended to the top level instead.  Either way, the multiset of node cores
of the forest grows by exactly the inserted file's nodes, and every meta
file built from a group under the root is present in the loaded workspace
forest — none is dropped. -/
theorem C1_add_file_insertion :
    (∀ (fs : List MetaFile) (f : MetaFile), 0 < f.depth →
      ((∀ g ∈ fs, ¬ isParentOf g f) → addFile fs f = fs ++ [f])
      ∧ (∀ (l₁ l₂ : List MetaFile) (g : MetaFile), fs = l₁ ++ g :: l₂ →
          (∀ g' ∈ l₁, ¬ isParentOf g' f) → isParentOf g f →
          addFile fs f = l₁ ++ g.addSubFile f :: l₂)
      ∧ List.Perm ((allNodesList (addFile fs f)).map MetaFile.core)
          ((f.allNodes.map MetaFile.core) ++
            ((allNodesList fs).map MetaFile.core)))
    ∧ (∀ (ws : Workspace) (docs : List Definition)
        (groups : List (List String × List (Nat × Definition)))
        (ws' : Workspace),
        groupDefsByFile docs = .ok groups → ws.load docs = .ok ws' →
        ∀ bf ∈ builtMetaFiles ws.root groups,
          bf.core ∈ (allNodesList ws'.files).map MetaFile.core) := by
  constructor
  · intro fs f hdepth
    have hd0 : ¬ f.depth = 0 := Nat.pos_iff_ne_zero.mp hdepth
    refine ⟨?_, ?_, addFile_cores fs f⟩
    · intro hnone
      unfold addFile
      rw [if_neg hd0, (insertIntoParent_eq_none_iff f fs).mpr hnone]
    · intro l₁ l₂ g hfs hl₁ hg
      unfold addFile
      rw [if_neg hd0, hfs, insertIntoParent_first_match f g l₁ l₂ hl₁ hg]
  · intro ws docs groups ws' hg hload bf hbf
    have hperm := load_cores ws docs groups hg ws' hload
    exact hperm.mem_iff.mpr
      (List.mem_append_left _ (List.mem_map_of_mem MetaFile.core hbf))

/-- Witness for C1: inserting `renoise/midi.lua` into a workspace whose
top level holds `renoise.lua` nests it under `renoise.lua`, and the
`a.lua` meta file built from the witness grouping is present in the loaded
forest. -/
theorem C1_witness :
    addFile [renoiseTop] midiFile = [renoiseTop.addSubFile midiFile]
    ∧ MetaFile.core bfA ∈ (allNodesList wsW.files).map MetaFile.core := by
  constructor
  · have h := (C1_add_file_insertion.1 [renoiseTop] midiFile (by decide)).2.1
      [] [] renoiseTop rfl (by simp) (by decide)
    simpa using h
  · refine C1_add_file_insertion.2 (Workspace.new ["r"]) docsW groupsW wsW
      rfl rfl bfA ?_
    rw [show builtMetaFiles (Workspace.new ["r"]).root groupsW = [bfA, bfB]
      from rfl]
    exact List.mem_cons_self _ _

/-! ## Claim C3: the shapes accepted by `deserialize_extends` -/

theorem exceptBind_eq_ok {α β : Type} {x : Except String α}
    {f : α → Except String β} {b : β} (h : (x >>= f) = .ok b) :
    ∃ a, x = .ok a ∧ f a = .ok b := by
  cases x with
  | ok a => exact ⟨a, rfl, h⟩
  | error e => cases h

/-- Claim C3 (settled as a code bug): an absent `extends` field decodes to
the empty list and the single-object and array shapes agree (a single
object `o` and the array `[o]` decode to the same list), but an explicit
`null` — which the claim, the specification and the function's own doc
comment all say decodes to the empty list — is rejected: `serde_json`
dispatches `null` to `visit_unit`, and the visitor only overrides
`visit_none`, leaving `visit_unit` at its default erroring
implementation. -/
theorem C3_extends_shapes :
    deserializeExtends none = .ok []
    ∧ (∃ e, deserializeExtends (some .null) = .error e)
    ∧ (∀ fields : List (String × Json),
        deserializeExtends (some (.obj fields))
          = (decodeExtend (.obj fields)).map (fun e => [e]))
    ∧ (∀ elems : List Json,
        deserializeExtends (some (.arr elems)) = elems.mapM decodeExtend)
    ∧ (∀ fields : List (String × Json),
        deserializeExtends (some (.obj fields))
          = deserializeExtends (some (.arr [.obj fields]))) := by
  refine ⟨rfl, ⟨"invalid type, expected array or map or null", rfl⟩,
    fun _ => rfl, fun _ => rfl, ?_⟩
  intro fields
  show (decodeExtend (.obj fields)).map (fun e => [e])
    = [Json.obj fields].mapM decodeExtend
  rw [show ([Json.obj fields].mapM decodeExtend : Except String (List Extend))
      = decodeExtend (Json.obj fields) >>= fun b =>
          List.mapM.loop decodeExtend [] [b] from rfl]
  cases h : decodeExtend (.obj fields) with
  | ok e => rfl
  | error msg => rfl

/-! ## Claim C4: unrecognized kind strings -/

/-- Counterexample to claim C4: the program also decodes definitions
through `src/types.rs` (the path used by `lib.rs`/`luals.rs`'s
`generate_docs`), where the kind field is `type DefinitionType = String`;
decoding a definition object whose kind is the unrecognized string `bogus`
through that model succeeds silently instead of failing. -/
theorem C4_counterexample_types_decode_accepts_unknown_kind :
    Types.decodeDefinition c4Input
      = .ok { desc := none, rawdesc := none, name := "x", lua_type := "bogus",
              defines := [] } :=
  rfl

/-- Claim C4 as amended: decoding into the record model of
`src/lua_cats.rs`, whose kind field is the closed `DefinitionType`
enumeration, fails with a decode error on every kind string outside the
enumeration (while the `src/types.rs` model accepts any kind string, as
the counterexample shows). -/
theorem C4_unknown_kind_is_decode_error :
    ∀ (fields : List (String × Json)) (s : String),
      getField fields "type" = some (.str s) →
      lookupDefinitionType s = none →
      ∃ e, decodeDefinition (.obj fields) = .error e := by
  intro fields s hf hl
  have hr : requireField fields "type" = .ok (.str s) := by
    unfold requireField
    rw [hf]
  have hd : decodeDefinitionType (Json.str s)
      = .error ("unknown variant " ++ s) := by
    show (match lookupDefinitionType s with
      | some t => Except.ok t
      | none => Except.error ("unknown variant " ++ s)) = _
    rw [hl]
  cases hdec : decodeDefinition (.obj fields) with
  | error e => exact ⟨e, rfl⟩
  | ok d =>
    exfalso
    unfold decodeDefinition at hdec
    obtain ⟨desc, h1, hdec⟩ := exceptBind_eq_ok hdec
    obtain ⟨rawdesc, h2, hdec⟩ := exceptBind_eq_ok hdec
    obtain ⟨jn, h3, hdec⟩ := exceptBind_eq_ok hdec
    obtain ⟨name, h4, hdec⟩ := exceptBind_eq_ok hdec
    obtain ⟨jt, h5, hdec⟩ := exceptBind_eq_ok hdec
    rw [hr] at h5
    obtain rfl := (Except.ok.inj h5).symm
    obtain ⟨t, h6, _⟩ := exceptBind_eq_ok hdec
    rw [hd] at h6
    cases h6

/-- Witness for the amended C4 at the concrete input `c4Input`: the kind
field holds the unrecognized string `bogus`, and the `lua_cats` decoder
rejects the object. -/
theorem C4_witness :
    getField [("name", Json.str "x"), ("type", Json.str "bogus"),
        ("defines", Json.arr [])] "type" = some (.str "bogus")
    ∧ lookupDefinitionType "bogus" = none
    ∧ ∃ e, decodeDefinition (.obj [("name", Json.str "x"),
        ("type", Json.str "bogus"), ("defines", Json.arr [])]) = .error e :=
  ⟨rfl, rfl,
    C4_unknown_kind_is_decode_error
      [("name", Json.str "x"), ("type", Json.str "bogus"),
        ("defines", Json.arr [])] "bogus" rfl rfl⟩

/-! ## Claim C6: every retained definition has a define under the root -/

/-- Claim C6: in a workspace built by `load` from a fresh workspace, every
definition of every meta file (anywhere in the forest) has at least one
define whose file resolves to a path under the root, and a definition all
of whose defines resolve outside the root appears in no meta file. -/
theorem C6_definitions_under_root :
    ∀ (root : List String) (docs : List Definition) (ws' : Workspace),
      (Workspace.new root).load docs = .ok ws' →
      (∀ mf ∈ allNodesList ws'.files, ∀ d ∈ mf.definitions,
          ∃ define ∈ d.defines, ∃ p,
            parseFileUrl define.file = some p ∧ root.isPrefixOf p = true)
      ∧ (∀ d : Definition,
          (∀ define ∈ d.defines, ∀ p, parseFileUrl define.file = some p →
            ¬ root.isPrefixOf p = true) →
          ∀ mf ∈ allNodesList ws'.files, d ∉ mf.definitions) := by
  intro root docs ws' h
  cases hg : groupDefsByFile docs with
  | error e =>
    exfalso
    unfold Workspace.load Workspace.loadImpl at h
    rw [hg] at h
    cases h
  | ok groups =>
    have hnode := load_new_node_from_group root docs groups hg ws' h
    have hsound := groupDefsByFile_sound docs groups hg
    have hfirst : ∀ mf ∈ allNodesList ws'.files, ∀ d ∈ mf.definitions,
        ∃ define ∈ d.defines, ∃ p,
          parseFileUrl define.file = some p ∧ root.isPrefixOf p = true := by
      intro mf hmf d hd
      obtain ⟨g, hgmem, rel, hs, _, hdefs⟩ := hnode mf hmf
      rw [hdefs] at hd
      obtain ⟨x, hx, hxd⟩ := List.mem_map.mp hd
      have hx' : x ∈ g.2 := (sortByStart_perm g.2).mem_iff.mp hx
      obtain ⟨_, define, hdf, _, hurl⟩ := hsound g hgmem x hx'
      subst hxd
      exact ⟨define, hdf, g.1, hurl, (stripPrefixPath_elim root g.1 rel hs).1⟩
    refine ⟨hfirst, ?_⟩
    intro d hout mf hmf hd
    obtain ⟨define, hdf, p, hurl, hpre⟩ := hfirst mf hmf d hd
    exact hout define hdf p hurl hpre

/-- Witness for C6 at the loaded witness workspace `wsW`: the definition
`y` stored in the `a.lua` node has a define resolving under `/r`. -/
theorem C6_witness :
    (Workspace.new ["r"]).load docsW = .ok wsW
    ∧ ∃ define ∈ defY.defines, ∃ p,
        parseFileUrl define.file = some p ∧ ["r"].isPrefixOf p = true := by
  constructor
  · rfl
  · refine (C6_definitions_under_root ["r"] docsW wsW rfl).1 nodeA ?_ defY ?_
    · exact List.mem_cons_self _ _
    · exact List.mem_cons_self _ _

/-! ## Claim C7: definitions are sorted by placing start offset -/

/-- Claim C7: in every meta file of a workspace built from a fresh
workspace, the definitions list is the second-projection of a list of
`(start, definition)` pairs that is sorted ascending on the start offsets,
where each pair's start offset is the offset of a define of that definition
resolving to this very file. -/
theorem C7_definitions_sorted_by_start :
    ∀ (root : List String) (docs : List Definition) (ws' : Workspace),
      (Workspace.new root).load docs = .ok ws' →
      ∀ mf ∈ allNodesList ws'.files,
        ∃ l : List (Nat × Definition),
          mf.definitions = l.map (fun x => x.2)
          ∧ l.Pairwise (fun a b => a.1 ≤ b.1)
          ∧ ∀ x ∈ l, ∃ define ∈ x.2.defines,
              define.start = x.1
              ∧ parseFileUrl define.file = some (root ++ mf.path) := by
  intro root docs ws' h mf hmf
  cases hg : groupDefsByFile docs with
  | error e =>
    exfalso
    unfold Workspace.load Workspace.loadImpl at h
    rw [hg] at h
    cases h
  | ok groups =>
    obtain ⟨g, hgmem, rel, hs, hpath, hdefs⟩ :=
      load_new_node_from_group root docs groups hg ws' h mf hmf
    have hsound := groupDefsByFile_sound docs groups hg
    refine ⟨sortByStart g.2, hdefs, sortByStart_pairwise g.2, ?_⟩
    intro x hx
    have hx' : x ∈ g.2 := (sortByStart_perm g.2).mem_iff.mp hx
    obtain ⟨_, define, hdf, hstart, hurl⟩ := hsound g hgmem x hx'
    refine ⟨define, hdf, hstart, ?_⟩
    obtain ⟨hpre, hrel⟩ := stripPrefixPath_elim root g.1 rel hs
    rw [hpath, hrel, isPrefixOf_append_drop root g.1 hpre]
    exact hurl

/-- Witness for C7 at the `a.lua` node of the loaded witness workspace:
its definitions `[y, x]` are the projection of a start-sorted pair list. -/
theorem C7_witness :
    (Workspace.new ["r"]).load docsW = .ok wsW
    ∧ ∃ l : List (Nat × Definition),
        nodeA.definitions = l.map (fun x => x.2)
        ∧ l.Pairwise (fun a b => a.1 ≤ b.1)
        ∧ ∀ x ∈ l, ∃ define ∈ x.2.defines,
            define.start = x.1
            ∧ parseFileUrl define.file = some (["r"] ++ nodeA.path) := by
  constructor
  · rfl
  · exact C7_definitions_sorted_by_start ["r"] docsW wsW rfl nodeA
      (List.mem_cons_self _ _)

/-! ## Claim C8: a definition is grouped once per define -/

/-- Claim C8: for every input definition and every one of its defines
whose file resolves under the root, the workspace built from a fresh
workspace contains a meta file at that define's relative path holding the
definition — so a definition with defines in several files appears in the
meta file of each of them. -/
theorem C8_definition_in_every_file :
    ∀ (root : List String) (docs : List Definition) (ws' : Workspace),
      (Workspace.new root).load docs = .ok ws' →
      ∀ d ∈ docs, ∀ define ∈ d.defines, ∀ p,
        parseFileUrl define.file = some p → root.isPrefixOf p = true →
        ∃ mf ∈ allNodesList ws'.files,
          mf.path = p.drop root.length ∧ d ∈ mf.definitions := by
  intro root docs ws' h d hd define hdf p hp hpre
  cases hg : groupDefsByFile docs with
  | error e =>
    exfalso
    unfold Workspace.load Workspace.loadImpl at h
    rw [hg] at h
    cases h
  | ok groups =>
    obtain ⟨g, hgmem, hkey, hv⟩ :=
      groupDefsByFile_complete docs groups hg d hd define hdf p hp
    have hs : stripPrefixPath root g.1 = some (p.drop root.length) := by
      rw [hkey]
      exact stripPrefixPath_of_isPrefixOf root p hpre
    have hbf := mem_builtMetaFiles root groups g (p.drop root.length) hgmem hs
    have hperm := load_cores (Workspace.new root) docs groups hg ws' h
    have hcorein : MetaFile.core (metaFileFrom (p.drop root.length) g.2)
        ∈ (allNodesList ws'.files).map MetaFile.core :=
      hperm.mem_iff.mpr
        (List.mem_append_left _ (List.mem_map_of_mem MetaFile.core hbf))
    obtain ⟨mf, hmf, hcore⟩ := List.mem_map.mp hcorein
    refine ⟨mf, hmf, ?_, ?_⟩
    · have h1 := congrArg (fun x => x.1) hcore
      simpa [MetaFile.core, metaFileFrom, MetaFile.path] using h1
    · have h2 := congrArg (fun x => x.2.1) hcore
      have hdefs : mf.definitions = (sortByStart g.2).map (fun x => x.2) := by
        simpa [MetaFile.core, metaFileFrom, MetaFile.definitions] using h2
      rw [hdefs]
      exact List.mem_map.mpr ⟨(define.start, d),
        (sortByStart_perm g.2).mem_iff.mpr hv, rfl⟩

/-- Witness for C8: the definition `x` has a define in `b.lua` under `/r`,
and the loaded witness workspace holds `x` in a meta file at `b.lua`. -/
theorem C8_witness :
    (Workspace.new ["r"]).load docsW = .ok wsW
    ∧ ∃ mf ∈ allNodesList wsW.files,
        mf.path = (["r", "b.lua"]).drop (["r"] : List String).length
        ∧ defX ∈ mf.definitions := by
  constructor
  · rfl
  · exact C8_definition_in_every_file ["r"] docsW wsW rfl defX (by decide)
      (defineAt "file:///r/b.lua" 1) (by decide) ["r", "b.lua"] rfl rfl


/-! ## Claim C9: error returns, successes and the root-URL panic -/

theorem insertGrouped_buckets_ne_nil (k : List String) (v : Nat × Definition) :
    ∀ (acc : List (List String × List (Nat × Definition))),
      (∀ g ∈ acc, g.2 ≠ []) →
      ∀ g ∈ insertGrouped k v acc, g.2 ≠ [] := by
  intro acc
  induction acc with
  | nil =>
    intro _ g hg
    obtain rfl := List.mem_singleton.mp hg
    simp
  | cons gh rest ih =>
    obtain ⟨k', vs⟩ := gh
    intro hacc g hg
    by_cases hk : k' = k
    · simp only [insertGrouped, if_pos hk] at hg
      rcases List.mem_cons.mp hg with rfl | hg
      · simp
      · exact hacc g (List.mem_cons_of_mem _ hg)
    · simp only [insertGrouped, if_neg hk] at hg
      rcases List.mem_cons.mp hg with rfl | hg
      · exact hacc (k', vs) (List.mem_cons_self _ _)
      · exact ih (fun g' hg' => hacc g' (List.mem_cons_of_mem _ hg')) g hg

theorem addDefinesToGroups_buckets_ne_nil (definition : Definition) :
    ∀ (defs : List Define)
      (acc res : List (List String × List (Nat × Definition))),
      addDefinesToGroups definition acc defs = .ok res →
      (∀ g ∈ acc, g.2 ≠ []) → ∀ g ∈ res, g.2 ≠ [] := by
  intro defs
  induction defs with
  | nil =>
    intro acc res hres hacc
    simp only [addDefinesToGroups, Except.ok.injEq] at hres
    subst hres
    exact hacc
  | cons df rest ih =>
    intro acc res hres hacc
    cases hp : parseFileUrl df.file with
    | none => simp [addDefinesToGroups, hp] at hres
    | some p =>
      simp only [addDefinesToGroups, hp] at hres
      exact ih _ res hres
        (insertGrouped_buckets_ne_nil p (df.start, definition) acc hacc)

theorem groupDefsByFile_buckets_ne_nil (docs : List Definition)
    (groups : List (List String × List (Nat × Definition)))
    (h : groupDefsByFile docs = .ok groups) :
    ∀ g ∈ groups, g.2 ≠ [] := by
  suffices haux : ∀ (ds : List Definition)
      (acc res : List (List String × List (Nat × Definition))),
      groupDefsByFileAux acc ds = .ok res →
      (∀ g ∈ acc, g.2 ≠ []) → ∀ g ∈ res, g.2 ≠ [] by
    exact haux docs [] groups h (by simp)
  intro ds
  induction ds with
  | nil =>
    intro acc res hres hacc
    simp only [groupDefsByFileAux, Except.ok.injEq] at hres
    subst hres
    exact hacc
  | cons d₀ ds ih =>
    intro acc res hres hacc
    cases ha : addDefinesToGroups d₀ acc d₀.defines with
    | error e => simp [groupDefsByFileAux, ha] at hres
    | ok acc' =>
      simp only [groupDefsByFileAux, ha] at hres
      exact ih acc' res hres
        (addDefinesToGroups_buckets_ne_nil d₀ d₀.defines acc acc' ha hacc)

theorem metaFileFromChecked_of_ne_nil (path : List String)
    (definitions : List (Nat × Definition)) (h : path ≠ []) :
    metaFileFromChecked path definitions
      = some (metaFileFrom path definitions) := by
  unfold metaFileFromChecked usizeSub metaFileFrom
  rw [if_pos (Nat.one_le_iff_ne_zero.mpr
    (fun h0 => h (List.eq_nil_of_length_eq_zero h0)))]
  rfl

theorem builtMetaFiles_cons_none (root : List String)
    (g : List String × List (Nat × Definition))
    (rest : List (List String × List (Nat × Definition)))
    (hs : stripPrefixPath root g.1 = none) :
    builtMetaFiles root (g :: rest) = builtMetaFiles root rest := by
  unfold builtMetaFiles
  rw [List.filterMap_cons]
  simp [hs]

theorem builtMetaFiles_cons_some (root : List String)
    (g : List String × List (Nat × Definition))
    (rest : List (List String × List (Nat × Definition)))
    (rel : List String) (hs : stripPrefixPath root g.1 = some rel) :
    builtMetaFiles root (g :: rest)
      = metaFileFrom rel g.2 :: builtMetaFiles root rest := by
  unfold builtMetaFiles
  rw [List.filterMap_cons]
  simp [hs]

theorem checkedBuild_cons_none (root : List String)
    (g : List String × List (Nat × Definition))
    (rest : List (List String × List (Nat × Definition)))
    (hs : stripPrefixPath root g.1 = none) :
    checkedBuild root (g :: rest) = checkedBuild root rest := by
  rw [show checkedBuild root (g :: rest)
      = (match stripPrefixPath root g.1 with
         | none => checkedBuild root rest
         | some rel =>
           match metaFileFromChecked rel g.2 with
           | none => none
           | some mf => (checkedBuild root rest).map (fun l => mf :: l))
    from rfl]
  simp [hs]

theorem checkedBuild_cons_some (root : List String)
    (g : List String × List (Nat × Definition))
    (rest : List (List String × List (Nat × Definition)))
    (rel : List String) (mf : MetaFile)
    (hs : stripPrefixPath root g.1 = some rel)
    (hmf : metaFileFromChecked rel g.2 = some mf) :
    checkedBuild root (g :: rest)
      = (checkedBuild root rest).map (fun l => mf :: l) := by
  rw [show checkedBuild root (g :: rest)
      = (match stripPrefixPath root g.1 with
         | none => checkedBuild root rest
         | some rel =>
           match metaFileFromChecked rel g.2 with
           | none => none
           | some mf => (checkedBuild root rest).map (fun l => mf :: l))
    from rfl]
  simp [hs, hmf]

/-- On groups none of whose retained relative paths is empty, the checked
build succeeds and agrees with the total `builtMetaFiles`. -/
theorem checkedBuild_complete (root : List String) :
    ∀ (groups : List (List String × List (Nat × Definition))),
      (∀ g ∈ groups, ∀ rel, stripPrefixPath root g.1 = some rel → rel ≠ []) →
      checkedBuild root groups = some (builtMetaFiles root groups) := by
  intro groups
  induction groups with
  | nil => intro _; rfl
  | cons g rest ih =>
    intro h
    have hrest := ih
      (fun g' hg' rel hrel => h g' (List.mem_cons_of_mem _ hg') rel hrel)
    cases hs : stripPrefixPath root g.1 with
    | none =>
      rw [checkedBuild_cons_none root g rest hs,
        builtMetaFiles_cons_none root g rest hs]
      exact hrest
    | some rel =>
      have hmf := metaFileFromChecked_of_ne_nil rel g.2
        (h g (List.mem_cons_self _ _) rel hs)
      rw [checkedBuild_cons_some root g rest rel _ hs hmf,
        builtMetaFiles_cons_some root g rest rel hs, hrest]
      rfl

/-- Counterexample to claim C9 as stated: the string
`file:///my/definitions/path` is a valid `file://` URL with an absolute
path (it parses and resolves), yet loading a definition located there into
a workspace rooted at that very path does not succeed — the empty relative
path makes the depth computation `path.components().count() - 1` underflow
(a panic in debug builds; release builds wrap and panic shortly after at
the `file_name().unwrap()` of the same file), so the run aborts with no
workspace produced (`.ok none`) instead of returning a loaded
workspace. -/
theorem C9_counterexample_root_url_panics :
    parseFileUrl "file:///my/definitions/path"
      = some ["my", "definitions", "path"]
    ∧ (Workspace.new ["my", "definitions", "path"]).loadChecked [rootDoc]
        = .ok none :=
  ⟨rfl, rfl⟩

/-- Claim C9 as amended: `load` returns an error exactly when some
define's file string cannot be parsed as a URL and converted to a
file-system path; and on every input whose define file fields are valid
`file://` URLs with absolute paths none of which resolves to the workspace
root itself, the load succeeds — the checked and total models agree on the
resulting workspace — including the empty definitions list, which yields
the workspace unchanged with an empty file list, regardless of how the
files nest. -/
theorem C9_load_error_iff_and_success :
    ∀ (ws : Workspace) (docs : List Definition),
      ((∃ e, ws.loadChecked docs = .error e)
        ↔ ∃ d ∈ docs, ∃ define ∈ d.defines, parseFileUrl define.file = none)
      ∧ ((∀ d ∈ docs, ∀ define ∈ d.defines,
            validNonRootUrl ws.root define.file = true) →
          ∃ ws', ws.loadChecked docs = .ok (some ws')
            ∧ ws.load docs = .ok ws')
      ∧ ∀ root : List String,
          (Workspace.new root).loadChecked []
            = .ok (some (Workspace.new root)) := by
  intro ws docs
  refine ⟨?_, ?_, fun root => rfl⟩
  · unfold Workspace.loadChecked
    cases hg : groupDefsByFile docs with
    | error e =>
      constructor
      · intro _
        exact (groupDefsByFileAux_error_iff docs []).mp ⟨e, hg⟩
      · intro _
        exact ⟨e, rfl⟩
    | ok groups =>
      constructor
      · intro h
        obtain ⟨e, he⟩ := h
        cases he
      · intro h
        exfalso
        obtain ⟨e, he⟩ := (groupDefsByFileAux_error_iff docs []).mpr h
        rw [show groupDefsByFile docs = groupDefsByFileAux [] docs from rfl,
          he] at hg
        cases hg
  · intro hvalid
    cases hg : groupDefsByFile docs with
    | error e =>
      exfalso
      obtain ⟨d, hd, define, hdf, hnone⟩ :=
        (groupDefsByFileAux_error_iff docs []).mp ⟨e, hg⟩
      have hv := hvalid d hd define hdf
      unfold validNonRootUrl at hv
      rw [hnone] at hv
      cases hv
    | ok groups =>
      have hne := groupDefsByFile_buckets_ne_nil docs groups hg
      have hsound := groupDefsByFile_sound docs groups hg
      have hrel : ∀ g ∈ groups, ∀ rel,
          stripPrefixPath ws.root g.1 = some rel → rel ≠ [] := by
        intro g hgm rel hs
        obtain ⟨hpre, hdrop⟩ := stripPrefixPath_elim ws.root g.1 rel hs
        obtain ⟨e, he⟩ := List.exists_mem_of_ne_nil _ (hne g hgm)
        obtain ⟨hdocs, define, hdf, _, hurl⟩ := hsound g hgm e he
        have hv := hvalid e.2 hdocs define hdf
        unfold validNonRootUrl at hv
        rw [hurl] at hv
        simp only [hpre, Bool.not_true, Bool.false_or,
          decide_eq_true_eq] at hv
        rw [hdrop]
        exact List.length_pos.mp (by rw [List.length_drop]; omega)
      have hbuild := checkedBuild_complete ws.root groups hrel
      have hw : ws.buildChecked groups = some { ws with files := (sortFiles (builtMetaFiles ws.root groups)).foldl MdbookLuacats.addFile ws.files } := by
        unfold Workspace.buildChecked
        rw [hbuild]
        rfl
      refine ⟨{ ws with files := (sortFiles (builtMetaFiles ws.root groups)).foldl MdbookLuacats.addFile ws.files }, ?_, ?_⟩
      · unfold Workspace.loadChecked
        rw [hg]
        show Except.ok (ws.buildChecked groups) = _
        rw [hw]
      · unfold Workspace.load Workspace.loadImpl
        rw [hg]

/-- Witness for the amended C9: every define of the witness input resolves
strictly below the root `/r`, and both the checked and the total load
succeed on it with the same workspace. -/
theorem C9_witness :
    (∀ d ∈ docsW, ∀ define ∈ d.defines,
        validNonRootUrl (Workspace.new ["r"]).root define.file = true)
    ∧ ∃ ws', (Workspace.new ["r"]).loadChecked docsW = .ok (some ws')
        ∧ (Workspace.new ["r"]).load docsW = .ok ws' :=
  ⟨by decide,
    (C9_load_error_iff_and_success (Workspace.new ["r"]) docsW).2.1
      (by decide)⟩

end MdbookLuacats
